import Mathlib

/-!
Shallow embedding of the monero-rs core library (network registry, key
algebra, address codec, RingCT codec) and proofs of the specification
claims about it.

Bytes are modelled as `Fin 256`; byte buffers as `List (Fin 256)`.
Rust operations that can panic on out-of-range indexing are modelled in
an `Option` layer (`none` = abnormal termination), while recoverable
typed errors use `Except`.

External collaborators (the Keccak-256 primitive and the Ed25519 point
decompression of curve25519-dalek) are modelled as explicit function
parameters, following section 6 of the specification which lists them as
consumed external interfaces.
-/

set_option maxRecDepth 4000

abbrev Byte := Fin 256

instance {ε α : Type} [DecidableEq ε] [DecidableEq α] :
    DecidableEq (Except ε α) := fun x y =>
  match x, y with
  | .ok a, .ok b =>
    if h : a = b then .isTrue (by rw [h]) else .isFalse (by simp [h])
  | .error e, .error f =>
    if h : e = f then .isTrue (by rw [h]) else .isFalse (by simp [h])
  | .ok _, .error _ => .isFalse (by simp)
  | .error _, .ok _ => .isFalse (by simp)

/-- Little-endian interpretation of a byte buffer as a natural number. -/
def leNat : List Byte → Nat
  | [] => 0
  | b :: rest => b.val + 256 * leNat rest

/-- Flip bit `j` of a byte. -/
def flipBit (j : Nat) (b : Byte) : Byte :=
  ⟨(b.val ^^^ 2 ^ j) % 256, Nat.mod_lt _ (by omega)⟩

/-- Flip bit `j` of byte `i` of a buffer. -/
def flipByteBit (i j : Nat) (l : List Byte) : List Byte :=
  match l.get? i with
  | some b => l.set i (flipBit j b)
  | none => l

/-- Rust slice `&bytes[a..b]`: `none` models the panic when out of range. -/
def slice? (l : List Byte) (a b : Nat) : Option (List Byte) :=
  if a ≤ b ∧ b ≤ l.length then some ((l.drop a).take (b - a)) else none

namespace network

/-- Error type of `network.rs`. -/
inductive Error
  | InvalidMagicByte
deriving DecidableEq

end network

/-- The three Monero networks (`network.rs`). -/
inductive Network
  | Mainnet
  | Stagenet
  | Testnet
deriving DecidableEq

namespace key

/-- Error type of `util/key.rs` (hex errors are out of scope here). -/
inductive Error
  | InvalidLength
  | NotCanonicalScalar
  | InvalidPoint
deriving DecidableEq

end key

/-- The order of the Ed25519 prime-order subgroup, the modulus of
curve25519-dalek scalars. -/
def lOrder : Nat := 2 ^ 252 + 27742317777372353535851937790883648493

instance : NeZero lOrder := ⟨by decide⟩

/-- `PrivateKey` of `util/key.rs`: wraps a curve scalar, an element of
the field of order `lOrder` (dalek `Scalar` arithmetic is modulo l). -/
structure PrivateKey where
  scalar : ZMod lOrder
deriving DecidableEq

namespace PrivateKey

/-- `PrivateKey::from_slice`: exactly 32 bytes, canonical (reduced)
little-endian scalar encoding; dalek `Scalar::from_canonical_bytes`
accepts exactly the buffers whose little-endian value is below l. -/
def from_slice (data : List Byte) : Except key.Error PrivateKey :=
  if data.length ≠ 32 then .error .InvalidLength
  else if leNat data < lOrder then .ok ⟨(leNat data : ZMod lOrder)⟩
  else .error .NotCanonicalScalar

/-- `impl Add for PrivateKey`: field addition of the scalars. -/
def add (a b : PrivateKey) : PrivateKey := ⟨a.scalar + b.scalar⟩

instance : Add PrivateKey := ⟨PrivateKey.add⟩

end PrivateKey

/-- `PublicKey` of `util/key.rs`: wraps the compressed point bytes
(`CompressedEdwardsY`). -/
structure PublicKey where
  point : List Byte
deriving DecidableEq

namespace PublicKey

/-- `PublicKey::from_slice`: exactly 32 bytes that decompress to a valid
curve point. Point decompression is the external dalek collaborator,
passed as the predicate `decompressOk`. -/
def from_slice (decompressOk : List Byte → Bool) (data : List Byte) :
    Except key.Error PublicKey :=
  if data.length ≠ 32 then .error .InvalidLength
  else if decompressOk data then .ok ⟨data⟩
  else .error .InvalidPoint

end PublicKey

section KeyAlgebra

/-!
The Ed25519 point group of curve25519-dalek, modelled abstractly: `G` is
the group of curve points, `basepoint` the fixed generator
`ED25519_BASEPOINT_TABLE`, `compress`/`decompress` the canonical point
(de)compression. The library contract is that decompression inverts
compression and that the basepoint has order dividing l.
-/

variable {G : Type} [AddCommGroup G]

/-- `PublicKey::from_private_key`: scalar-multiply the base point and
compress. The dalek scalar acts through its canonical representative. -/
def PublicKey.from_private_key (compress : G → List Byte) (basepoint : G)
    (privkey : PrivateKey) : PublicKey :=
  ⟨compress (privkey.scalar.val • basepoint)⟩

/-- `impl Add for PublicKey`: decompress both sides (`PublicKey::point`,
which can only fail on an invalidly constructed key, hence the `Option`
layer), add the points, compress. -/
def PublicKey.addP (compress : G → List Byte) (decompress : List Byte → Option G)
    (p q : PublicKey) : Option PublicKey := do
  let x ← decompress p.point
  let y ← decompress q.point
  pure ⟨compress (x + y)⟩

end KeyAlgebra

namespace Network

/-- `Network::from_u8`: recover the network from an address magic byte;
the nine table values partition into the three networks. -/
def from_u8 (byte : Byte) : Except network.Error Network :=
  if byte = 18 ∨ byte = 19 ∨ byte = 42 then .ok .Mainnet
  else if byte = 53 ∨ byte = 54 ∨ byte = 63 then .ok .Testnet
  else if byte = 24 ∨ byte = 25 ∨ byte = 36 then .ok .Stagenet
  else .error .InvalidMagicByte

end Network

/-- `PaymentId` of `util/address.rs`: an 8-byte identifier
(`fixed_hash::construct_fixed_hash! { pub struct PaymentId(8); }`). -/
structure PaymentId where
  bytes : List Byte
deriving DecidableEq

/-- `AddressType` of `util/address.rs`. -/
inductive AddressType
  | Standard
  | Integrated (payment_id : PaymentId)
  | SubAddress
deriving DecidableEq

namespace Network

/-- `Network::as_u8`: the magic byte of a (network, address type) pair. -/
def as_u8 (net : Network) (addr_type : AddressType) : Byte :=
  match net with
  | .Mainnet =>
    match addr_type with
    | .Standard => 18
    | .Integrated _ => 19
    | .SubAddress => 42
  | .Testnet =>
    match addr_type with
    | .Standard => 53
    | .Integrated _ => 54
    | .SubAddress => 63
  | .Stagenet =>
    match addr_type with
    | .Standard => 24
    | .Integrated _ => 25
    | .SubAddress => 36

end Network

namespace address

/-- Error type of `util/address.rs` (the base58 variant is out of scope:
only byte-level parsing is modelled). -/
inductive Error
  | InvalidMagicByte
  | InvalidPaymentId
  | InvalidChecksum
  | InvalidFormat
  | Network (e : network.Error)
deriving DecidableEq

end address

namespace AddressType

/-- `AddressType::from_slice`: reads `bytes[0]` (panics when empty, the
outer `Option`) and, for an Integrated magic byte, the payment id at
`bytes[65..73]` (panics when the buffer is shorter than 73 bytes). The
Rust code reads `bytes[0]` before matching on the network; matching on
the network first is equivalent since the match itself cannot fail. -/
def from_slice (bytes : List Byte) (net : Network) :
    Option (Except address.Error AddressType) :=
  match net with
  | .Mainnet => do
    let byte ← bytes.head?
    if byte = 18 then pure (.ok .Standard)
    else if byte = 19 then do
      let pid ← slice? bytes 65 73
      pure (.ok (.Integrated ⟨pid⟩))
    else if byte = 42 then pure (.ok .SubAddress)
    else pure (.error .InvalidMagicByte)
  | .Testnet => do
    let byte ← bytes.head?
    if byte = 53 then pure (.ok .Standard)
    else if byte = 54 then do
      let pid ← slice? bytes 65 73
      pure (.ok (.Integrated ⟨pid⟩))
    else if byte = 63 then pure (.ok .SubAddress)
    else pure (.error .InvalidMagicByte)
  | .Stagenet => do
    let byte ← bytes.head?
    if byte = 24 then pure (.ok .Standard)
    else if byte = 25 then do
      let pid ← slice? bytes 65 73
      pure (.ok (.Integrated ⟨pid⟩))
    else if byte = 36 then pure (.ok .SubAddress)
    else pure (.error .InvalidMagicByte)

end AddressType

/-- `Address` of `util/address.rs`. -/
structure Address where
  network : Network
  addr_type : AddressType
  public_spend : PublicKey
  public_view : PublicKey
deriving DecidableEq

namespace Address

/-- `Address::as_bytes`, parameterized by the external Keccak-256
primitive: magic byte, spend key, view key, payment id when Integrated,
then the first 4 bytes of the Keccak-256 of everything preceding. -/
def as_bytes (keccak : List Byte → List Byte) (a : Address) : List Byte :=
  let bytes := a.network.as_u8 a.addr_type ::
    (a.public_spend.point ++ a.public_view.point ++
      (match a.addr_type with
       | .Integrated payment_id => payment_id.bytes
       | _ => []))
  bytes ++ (keccak bytes).take 4

/-- `Address::from_bytes`, parameterized by the external Keccak-256
primitive and dalek point decompression. The outer `Option` models the
panics of the unchecked Rust indexings `bytes[0]`, `&bytes[1..33]`,
`&bytes[33..65]`, `&bytes[0..65]`/`&bytes[0..73]` and the checksum
slices; the inner `Except` carries the typed parse errors. -/
def from_bytes (keccak : List Byte → List Byte)
    (decompressOk : List Byte → Bool) (bytes : List Byte) :
    Option (Except address.Error Address) := do
  let b0 ← bytes.head?
  match Network.from_u8 b0 with
  | .error e => pure (.error (.Network e))
  | .ok network =>
    match ← AddressType.from_slice bytes network with
    | .error e => pure (.error e)
    | .ok addr_type => do
      let s ← slice? bytes 1 33
      match PublicKey.from_slice decompressOk s with
      | .error _ => pure (.error .InvalidFormat)
      | .ok public_spend => do
        let v ← slice? bytes 33 65
        match PublicKey.from_slice decompressOk v with
        | .error _ => pure (.error .InvalidFormat)
        | .ok public_view => do
          let checksum_bytes ← match addr_type with
            | .Standard | .SubAddress => slice? bytes 0 65
            | .Integrated _ => slice? bytes 0 73
          let checksum ← match addr_type with
            | .Standard | .SubAddress => slice? bytes 65 69
            | .Integrated _ => slice? bytes 73 77
          if (keccak checksum_bytes).take 4 ≠ checksum then
            pure (.error .InvalidChecksum)
          else
            pure (.ok ⟨network, addr_type, public_spend, public_view⟩)

end Address

/-! ## Address codec lemmas -/

/-- Slicing a buffer at the exact boundaries of a middle segment. -/
theorem slice?_pre_mid (pre mid post : List Byte) :
    slice? (pre ++ (mid ++ post)) pre.length (pre.length + mid.length) = some mid := by
  unfold slice?
  rw [if_pos]
  · rw [Nat.add_sub_cancel_left]
    rw [List.drop_left, List.take_left]
  · refine ⟨by omega, ?_⟩
    simp [List.length_append]

/-- The magic byte produced by `Network::as_u8` is recognized by
`Network::from_u8` as the same network. -/
theorem from_u8_as_u8 (n : Network) (t : AddressType) :
    Network.from_u8 (n.as_u8 t) = .ok n := by
  cases n <;> cases t <;> rfl

/-- `AddressType::from_slice` recovers the address type from its own
magic byte (with the payment id read back from offsets 65..73 for
Integrated addresses). -/
theorem from_slice_mk_recovers (n : Network) (t : AddressType) (bytes : List Byte)
    (h0 : bytes.head? = some (n.as_u8 t))
    (hpid : ∀ pid, t = .Integrated pid → slice? bytes 65 73 = some pid.bytes) :
    AddressType.from_slice bytes n = some (.ok t) := by
  cases n <;> cases t <;>
    simp_all [AddressType.from_slice, Network.as_u8, Option.bind]

/-- A valid address: both public keys are 32-byte buffers that
decompress to curve points, and an Integrated payment id is 8 bytes
(these are the invariants `PublicKey::from_slice` and
`PaymentId::from_slice` enforce at construction). -/
def Address.Valid (decompressOk : List Byte → Bool) (a : Address) : Prop :=
  a.public_spend.point.length = 32 ∧ decompressOk a.public_spend.point = true ∧
  a.public_view.point.length = 32 ∧ decompressOk a.public_view.point = true ∧
  ∀ pid, a.addr_type = .Integrated pid → pid.bytes.length = 8

/-- Round trip through the byte codec, with arbitrary bytes allowed
after the checksum: `from_bytes` never looks past the checksum. -/
theorem from_bytes_as_bytes_junk (keccak : List Byte → List Byte)
    (decompressOk : List Byte → Bool) (a : Address) (junk : List Byte)
    (hk : ∀ x, (keccak x).length = 32)
    (hv : Address.Valid decompressOk a) :
    Address.from_bytes keccak decompressOk (Address.as_bytes keccak a ++ junk) =
      some (.ok a) := by
  obtain ⟨n, t, ⟨s⟩, ⟨v⟩⟩ := a
  obtain ⟨hs, hds, hvw, hdv, hpid⟩ := hv
  simp only at hs hds hvw hdv
  cases t with
  | Standard =>
    simp only [Address.as_bytes, List.append_nil, List.cons_append, List.append_assoc]
    set m : Byte := n.as_u8 .Standard with hm
    set c : List Byte := (keccak (m :: (s ++ v))).take 4 with hc
    have hcl : c.length = 4 := by simp [hc, hk]
    have h133 : slice? (m :: (s ++ (v ++ (c ++ junk)))) 1 33 = some s := by
      have := slice?_pre_mid [m] s (v ++ (c ++ junk))
      simpa [hs] using this
    have h3365 : slice? (m :: (s ++ (v ++ (c ++ junk)))) 33 65 = some v := by
      have := slice?_pre_mid (m :: s) v (c ++ junk)
      simpa [hs, hvw, List.append_assoc] using this
    have h065 : slice? (m :: (s ++ (v ++ (c ++ junk)))) 0 65 = some (m :: (s ++ v)) := by
      have := slice?_pre_mid [] (m :: (s ++ v)) (c ++ junk)
      simpa [hs, hvw, List.append_assoc] using this
    have h6569 : slice? (m :: (s ++ (v ++ (c ++ junk)))) 65 69 = some c := by
      have := slice?_pre_mid (m :: (s ++ v)) c junk
      simpa [hs, hvw, hcl, List.append_assoc] using this
    have hfs : AddressType.from_slice (m :: (s ++ (v ++ (c ++ junk)))) n =
        some (.ok .Standard) := by
      apply from_slice_mk_recovers
      · rfl
      · intro pid hpid'
        cases hpid'
    have hnu : Network.from_u8 m = .ok n := from_u8_as_u8 n .Standard
    simp [Address.from_bytes, hnu, hfs, h133, h3365, h065, h6569,
      PublicKey.from_slice, hs, hds, hvw, hdv, Option.bind]
  | SubAddress =>
    simp only [Address.as_bytes, List.append_nil, List.cons_append, List.append_assoc]
    set m : Byte := n.as_u8 .SubAddress with hm
    set c : List Byte := (keccak (m :: (s ++ v))).take 4 with hc
    have hcl : c.length = 4 := by simp [hc, hk]
    have h133 : slice? (m :: (s ++ (v ++ (c ++ junk)))) 1 33 = some s := by
      have := slice?_pre_mid [m] s (v ++ (c ++ junk))
      simpa [hs] using this
    have h3365 : slice? (m :: (s ++ (v ++ (c ++ junk)))) 33 65 = some v := by
      have := slice?_pre_mid (m :: s) v (c ++ junk)
      simpa [hs, hvw, List.append_assoc] using this
    have h065 : slice? (m :: (s ++ (v ++ (c ++ junk)))) 0 65 = some (m :: (s ++ v)) := by
      have := slice?_pre_mid [] (m :: (s ++ v)) (c ++ junk)
      simpa [hs, hvw, List.append_assoc] using this
    have h6569 : slice? (m :: (s ++ (v ++ (c ++ junk)))) 65 69 = some c := by
      have := slice?_pre_mid (m :: (s ++ v)) c junk
      simpa [hs, hvw, hcl, List.append_assoc] using this
    have hfs : AddressType.from_slice (m :: (s ++ (v ++ (c ++ junk)))) n =
        some (.ok .SubAddress) := by
      apply from_slice_mk_recovers
      · rfl
      · intro pid hpid'
        cases hpid'
    have hnu : Network.from_u8 m = .ok n := from_u8_as_u8 n .SubAddress
    simp [Address.from_bytes, hnu, hfs, h133, h3365, h065, h6569,
      PublicKey.from_slice, hs, hds, hvw, hdv, Option.bind]
  | Integrated pid =>
    have hp8 : pid.bytes.length = 8 := hpid pid rfl
    simp only [Address.as_bytes, List.cons_append, List.append_assoc]
    set m : Byte := n.as_u8 (.Integrated pid) with hm
    set p : List Byte := pid.bytes with hp
    set c : List Byte := (keccak (m :: (s ++ (v ++ p)))).take 4 with hc
    have hcl : c.length = 4 := by simp [hc, hk]
    have h133 : slice? (m :: (s ++ (v ++ (p ++ (c ++ junk))))) 1 33 = some s := by
      have := slice?_pre_mid [m] s (v ++ (p ++ (c ++ junk)))
      simpa [hs] using this
    have h3365 : slice? (m :: (s ++ (v ++ (p ++ (c ++ junk))))) 33 65 = some v := by
      have := slice?_pre_mid (m :: s) v (p ++ (c ++ junk))
      simpa [hs, hvw, List.append_assoc] using this
    have h6573 : slice? (m :: (s ++ (v ++ (p ++ (c ++ junk))))) 65 73 = some p := by
      have := slice?_pre_mid (m :: (s ++ v)) p (c ++ junk)
      simpa [hs, hvw, hp8, List.append_assoc] using this
    have h073 : slice? (m :: (s ++ (v ++ (p ++ (c ++ junk))))) 0 73 =
        some (m :: (s ++ (v ++ p))) := by
      have := slice?_pre_mid [] (m :: (s ++ (v ++ p))) (c ++ junk)
      simpa [hs, hvw, hp8, List.append_assoc] using this
    have h7377 : slice? (m :: (s ++ (v ++ (p ++ (c ++ junk))))) 73 77 = some c := by
      have := slice?_pre_mid (m :: (s ++ (v ++ p))) c junk
      simpa [hs, hvw, hp8, hcl, List.append_assoc] using this
    have hfs : AddressType.from_slice (m :: (s ++ (v ++ (p ++ (c ++ junk))))) n =
        some (.ok (.Integrated pid)) := by
      apply from_slice_mk_recovers
      · rfl
      · intro pid' hpid'
        cases hpid'
        exact h6573
    have hnu : Network.from_u8 m = .ok n := from_u8_as_u8 n (.Integrated pid)
    simp [Address.from_bytes, hnu, hfs, h133, h3365, h6573, h073, h7377,
      PublicKey.from_slice, hs, hds, hvw, hdv, Option.bind]

/-! ## Witness instantiations of the external collaborators -/

/-- A stand-in for the external Keccak-256 primitive in concrete
witnesses: input-dependent, always 32 bytes long. Only the output length
matters to the theorems; no claim depends on actual digest values. -/
def keccakW : List Byte → List Byte :=
  fun l => List.replicate 32 ⟨leNat l % 256, Nat.mod_lt _ (by omega)⟩

theorem keccakW_length : ∀ x, (keccakW x).length = 32 := by
  intro x
  simp [keccakW]

/-- A stand-in for dalek point decompression that accepts every 32-byte
buffer, used to instantiate witnesses. -/
def decompressW : List Byte → Bool := fun _ => true

/-- Concrete spend-key bytes for witnesses. -/
def spendW : List Byte := List.replicate 32 7

/-- Concrete view-key bytes for witnesses. -/
def viewW : List Byte := List.replicate 32 9

/-- A concrete Mainnet standard address for witnesses. -/
def addrW : Address := ⟨.Mainnet, .Standard, ⟨spendW⟩, ⟨viewW⟩⟩

/-- A concrete Mainnet integrated address for witnesses. -/
def addrIntW : Address :=
  ⟨.Mainnet, .Integrated ⟨[88, 118, 184, 183, 41, 150, 255, 151]⟩, ⟨spendW⟩, ⟨viewW⟩⟩

theorem addrW_valid : Address.Valid decompressW addrW := by
  refine ⟨by decide, rfl, by decide, rfl, ?_⟩
  intro pid h
  cases h

theorem addrIntW_valid : Address.Valid decompressW addrIntW := by
  refine ⟨by decide, rfl, by decide, rfl, ?_⟩
  intro pid h
  cases h
  decide

/-! ## Claim C1 -/

/-- C1: for every valid address (any network, any address type, valid
keys), decoding its own byte serialization returns the same address:
`Address::from_bytes(a.as_bytes()) == Ok(a)`; the serialization layout
is magic byte, spend key, view key, payment id (Integrated only), then
the first 4 bytes of Keccak-256 of all preceding bytes (see
`Address.as_bytes`). -/
theorem address_round_trip (keccak : List Byte → List Byte)
    (decompressOk : List Byte → Bool) (a : Address)
    (hk : ∀ x, (keccak x).length = 32)
    (hv : Address.Valid decompressOk a) :
    Address.from_bytes keccak decompressOk (Address.as_bytes keccak a) =
      some (.ok a) := by
  have h := from_bytes_as_bytes_junk keccak decompressOk a [] hk hv
  simpa using h

/-- Witness for C1: the round trip at a concrete integrated address. -/
theorem address_round_trip_witness :
    Address.Valid decompressW addrIntW ∧
    Address.from_bytes keccakW decompressW (Address.as_bytes keccakW addrIntW) =
      some (.ok addrIntW) :=
  ⟨addrIntW_valid,
    address_round_trip keccakW decompressW addrIntW keccakW_length addrIntW_valid⟩

/-! ## Claim C10 -/

/-- C10: `Address::from_bytes` ignores any bytes after the checksum: a
buffer that starts with a valid address encoding decodes to that same
address no matter what extra bytes follow, so a decode success does not
imply the input was exactly an address encoding. -/
theorem address_decode_ignores_trailing (keccak : List Byte → List Byte)
    (decompressOk : List Byte → Bool) (a : Address) (junk : List Byte)
    (hk : ∀ x, (keccak x).length = 32)
    (hv : Address.Valid decompressOk a) :
    Address.from_bytes keccak decompressOk (Address.as_bytes keccak a ++ junk) =
      some (.ok a) :=
  from_bytes_as_bytes_junk keccak decompressOk a junk hk hv

/-- Witness for C10: three arbitrary bytes appended to a concrete
standard address encoding are ignored. -/
theorem address_decode_ignores_trailing_witness :
    Address.Valid decompressW addrW ∧
    Address.from_bytes keccakW decompressW
      (Address.as_bytes keccakW addrW ++ [0, 255, 1]) = some (.ok addrW) :=
  ⟨addrW_valid,
    address_decode_ignores_trailing keccakW decompressW addrW [0, 255, 1]
      keccakW_length addrW_valid⟩

/-! ## Claim C4 -/

/-- C4: the specification requires `Address::from_bytes` to return a
typed error and never panic on malformed external input, but the code
indexes `bytes[0]` (and fixed slices) without a length check, so the
empty slice makes it panic with an out-of-bounds index: in the model the
result is `none` (abnormal termination), not a typed `Err`. -/
theorem from_bytes_empty_panics (keccak : List Byte → List Byte)
    (decompressOk : List Byte → Bool) :
    Address.from_bytes keccak decompressOk [] = none := rfl

/-! ## Claim C5 -/

/-- C5: construction of keys from byte slices routes errors exactly as
specified: `PrivateKey::from_slice` fails `InvalidLength` off 32 bytes,
fails `NotCanonicalScalar` on a 32-byte non-reduced scalar encoding, and
succeeds otherwise; `PublicKey::from_slice` fails `InvalidLength` off 32
bytes, fails `InvalidPoint` on a 32-byte buffer that does not
decompress, and succeeds otherwise. -/
theorem key_from_slice_error_routing :
    (∀ b : List Byte, b.length ≠ 32 →
      PrivateKey.from_slice b = .error .InvalidLength) ∧
    (∀ b : List Byte, b.length = 32 → lOrder ≤ leNat b →
      PrivateKey.from_slice b = .error .NotCanonicalScalar) ∧
    (∀ b : List Byte, b.length = 32 → leNat b < lOrder →
      PrivateKey.from_slice b = .ok ⟨(leNat b : ZMod lOrder)⟩) ∧
    (∀ (decompressOk : List Byte → Bool) (b : List Byte), b.length ≠ 32 →
      PublicKey.from_slice decompressOk b = .error .InvalidLength) ∧
    (∀ (decompressOk : List Byte → Bool) (b : List Byte), b.length = 32 →
      decompressOk b = false →
      PublicKey.from_slice decompressOk b = .error .InvalidPoint) ∧
    (∀ (decompressOk : List Byte → Bool) (b : List Byte), b.length = 32 →
      decompressOk b = true →
      PublicKey.from_slice decompressOk b = .ok ⟨b⟩) := by
  refine ⟨?_, ?_, ?_, ?_, ?_, ?_⟩ <;> intro b
  · intro h
    simp [PrivateKey.from_slice, h]
  · intro h hge
    simp [PrivateKey.from_slice, h, Nat.not_lt.mpr hge]
  · intro h hlt
    simp [PrivateKey.from_slice, h, hlt]
  · intro c h
    simp [PublicKey.from_slice, h]
  · intro c h hd
    simp [PublicKey.from_slice, h, hd]
  · intro c h hd
    simp [PublicKey.from_slice, h, hd]

/-- Witness for C5: concrete 31-byte, non-canonical 32-byte, canonical
32-byte, and valid/invalid point buffers. -/
theorem key_from_slice_error_routing_witness :
    PrivateKey.from_slice (List.replicate 31 0) = .error .InvalidLength ∧
    PrivateKey.from_slice (List.replicate 32 255) = .error .NotCanonicalScalar ∧
    PrivateKey.from_slice (List.replicate 32 1) =
      .ok ⟨(leNat (List.replicate 32 1) : ZMod lOrder)⟩ ∧
    PublicKey.from_slice decompressW [1, 2, 3] = .error .InvalidLength ∧
    PublicKey.from_slice (fun _ => false) (List.replicate 32 2) =
      .error .InvalidPoint ∧
    PublicKey.from_slice decompressW (List.replicate 32 2) =
      .ok ⟨List.replicate 32 2⟩ :=
  ⟨key_from_slice_error_routing.1 _ (by decide),
   key_from_slice_error_routing.2.1 _ (by decide) (by decide),
   key_from_slice_error_routing.2.2.1 _ (by decide) (by decide),
   key_from_slice_error_routing.2.2.2.1 decompressW _ (by decide),
   key_from_slice_error_routing.2.2.2.2.1 _ _ (by decide) rfl,
   key_from_slice_error_routing.2.2.2.2.2 decompressW _ (by decide) rfl⟩

/-! ## Claim C7 -/

/-- C7: the magic-byte mapping is the fixed two-way table: `from_u8`
inverts `as_u8` on every (network, kind) pair; `AddressType::from_slice`
on a buffer whose first byte is `as_u8(network, kind)` (carrying the
payment id at 65..73 for Integrated) recovers the kind; and `from_u8`
fails `InvalidMagicByte` on every byte outside the nine table values. -/
theorem magic_byte_bijection :
    (∀ (n : Network) (t : AddressType),
      Network.from_u8 (Network.as_u8 n t) = .ok n) ∧
    (∀ (n : Network) (t : AddressType) (bytes : List Byte),
      bytes.head? = some (Network.as_u8 n t) →
      (∀ pid, t = .Integrated pid → slice? bytes 65 73 = some pid.bytes) →
      AddressType.from_slice bytes n = some (.ok t)) ∧
    (∀ b : Byte, b ∉ ([18, 19, 42, 53, 54, 63, 24, 25, 36] : List Byte) →
      Network.from_u8 b = .error .InvalidMagicByte) := by
  refine ⟨from_u8_as_u8, from_slice_mk_recovers, ?_⟩
  decide

/-- Witness for C7: the table at (Mainnet, Integrated) with a concrete
payment id, and the failure at byte 20. -/
theorem magic_byte_bijection_witness :
    Network.from_u8 (Network.as_u8 .Mainnet (.Integrated ⟨[1, 2, 3, 4, 5, 6, 7, 8]⟩)) =
      .ok .Mainnet ∧
    AddressType.from_slice
      ((19 : Byte) :: List.replicate 64 0 ++ [1, 2, 3, 4, 5, 6, 7, 8] ++
        List.replicate 4 0) .Mainnet =
      some (.ok (.Integrated ⟨[1, 2, 3, 4, 5, 6, 7, 8]⟩)) ∧
    Network.from_u8 20 = .error .InvalidMagicByte :=
  ⟨magic_byte_bijection.1 .Mainnet (.Integrated ⟨[1, 2, 3, 4, 5, 6, 7, 8]⟩),
   magic_byte_bijection.2.1 .Mainnet (.Integrated ⟨[1, 2, 3, 4, 5, 6, 7, 8]⟩) _
     (by decide) (fun pid h => by cases h; decide),
   magic_byte_bijection.2.2 20 (by decide)⟩

/-! ## Claim C6 -/

/-- Distributing a `ZMod lOrder` scalar (acting through its canonical
representative, as a dalek `Scalar` does) over a point of order dividing
l. -/
theorem val_add_smul {G : Type} [AddCommGroup G] (basepoint : G)
    (hord : lOrder • basepoint = 0) (x y : ZMod lOrder) :
    ((x + y).val) • basepoint = x.val • basepoint + y.val • basepoint := by
  rw [ZMod.val_add, ← add_nsmul]
  set S := x.val + y.val with hS
  conv_rhs => rw [← Nat.div_add_mod S lOrder]
  rw [add_nsmul, mul_nsmul, hord, smul_zero, zero_add]

/-- C6: `PublicKey::from_private_key` is a homomorphism: for all private
keys a and b, `from_private_key(a + b)` equals
`from_private_key(a) + from_private_key(b)`, where private-key addition
is scalar field addition and public-key addition decompresses both
points, adds them on the curve, and compresses the sum. Stated over the
external dalek point group: `hcd` is its guarantee that decompression
inverts compression, `hord` that the base point has order dividing l. -/
theorem from_private_key_homomorphism {G : Type} [AddCommGroup G]
    (compress : G → List Byte) (decompress : List Byte → Option G) (basepoint : G)
    (hcd : ∀ P : G, decompress (compress P) = some P)
    (hord : lOrder • basepoint = 0)
    (a b : PrivateKey) :
    PublicKey.addP compress decompress
      (PublicKey.from_private_key compress basepoint a)
      (PublicKey.from_private_key compress basepoint b) =
    some (PublicKey.from_private_key compress basepoint (a + b)) := by
  simp [PublicKey.addP, PublicKey.from_private_key, hcd, Option.bind]
  have h : (a + b).scalar = a.scalar + b.scalar := rfl
  rw [h, val_add_smul basepoint hord]

/-- A concrete instance of the point-group interface for the C6 witness:
the cyclic group of order l itself, compression encoding the canonical
representative in unary. -/
def compressG : ZMod lOrder → List Byte := fun x => List.replicate x.val 0

/-- Inverse of `compressG` for the C6 witness. -/
def decompressG : List Byte → Option (ZMod lOrder) :=
  fun bs => some ((bs.length : ℕ) : ZMod lOrder)

theorem decompressG_compressG : ∀ P : ZMod lOrder, decompressG (compressG P) = some P := by
  intro P
  simp [compressG, decompressG, ZMod.natCast_val]

theorem basepointG_order : lOrder • (1 : ZMod lOrder) = 0 := by
  simp [nsmul_eq_mul, ZMod.natCast_self]

/-- Witness for C6: the homomorphism at the concrete scalars 2 and 3 in
a concrete instance of the point-group interface. -/
theorem from_private_key_homomorphism_witness :
    lOrder • (1 : ZMod lOrder) = 0 ∧
    PublicKey.addP compressG decompressG
      (PublicKey.from_private_key compressG 1 ⟨2⟩)
      (PublicKey.from_private_key compressG 1 ⟨3⟩) =
    some (PublicKey.from_private_key compressG 1 (⟨2⟩ + ⟨3⟩)) :=
  ⟨basepointG_order,
    from_private_key_homomorphism compressG decompressG 1
      decompressG_compressG basepointG_order ⟨2⟩ ⟨3⟩⟩

/-! ## Consensus codec framework

The `consensus::encode` module (Decoder/Encoder traits, VarInt, the
`decode_sized_vec!` and `encode_sized_vec!` macros) is part of this
repository but not among the provided sources, so it is modelled from
the specification, section 4.4. -/

namespace consensus

/-- Modelled from the spec: the decode errors of the missing
`consensus::encode` module — a cursor-exhaustion error from the
byte-cursor collaborator, and the RingCT type error of `ringct.rs`
(`Error::UnknownRctType`, converted via `From`). -/
inductive DecodeError
  | Eof
  | UnknownRctType
deriving DecidableEq

/-- A decoder: consumes a prefix of the cursor, returns the value and
the remaining bytes, or fails. -/
def Dec (α : Type) : Type := List Byte → Except DecodeError (α × List Byte)

/-- Sequential composition of decoders. -/
def dbind {α β : Type} (p : Dec α) (f : α → Dec β) : Dec β := fun d =>
  match p d with
  | .error e => .error e
  | .ok (a, d') => f a d'

/-- The decoder returning a fixed value without consuming input. -/
def dpure {α : Type} (a : α) : Dec α := fun d => .ok (a, d)

/-- Modelled from the spec: `read_exact(n)`, failing on EOF. -/
def readBytes (n : Nat) : Dec (List Byte) := fun d =>
  if n ≤ d.length then .ok (d.take n, d.drop n) else .error .Eof

/-- Modelled from the spec: decode a primitive `u8`. -/
def decodeU8 : Dec Byte := fun d =>
  match d with
  | [] => .error .Eof
  | b :: r => .ok (b, r)

/-- Little-endian bytes of `n`, `w` bytes wide. -/
def leBytes : Nat → Nat → List Byte
  | 0, _ => []
  | w + 1, n => ⟨n % 256, Nat.mod_lt _ (by omega)⟩ :: leBytes w (n / 256)

/-- Modelled from the spec: decode a little-endian `u32`. -/
def decodeU32 : Dec Nat :=
  dbind (readBytes 4) (fun bs => dpure (leNat bs))

/-- Modelled from the spec: encode a `u32` as 4 little-endian bytes. -/
def encodeU32 (n : Nat) : List Byte := leBytes 4 n

/-- Fuel-bounded worker for `varintEncode`; the fuel only serves to make
the recursion structural (`varintEncode` always supplies enough). -/
def varintEncodeAux : Nat → Nat → List Byte
  | 0, _ => []
  | fuel + 1, n =>
    if h : n < 128 then [⟨n, by omega⟩]
    else ⟨n % 128 + 128, by omega⟩ :: varintEncodeAux fuel (n / 128)

/-- Modelled from the spec: VarInt encoding — 7-bit groups, little
endian, continuation bit in the high bit of each byte. -/
def varintEncode (n : Nat) : List Byte := varintEncodeAux (n + 1) n

theorem varintEncodeAux_congr :
    ∀ m1 m2 n : Nat, n < m1 → n < m2 →
      varintEncodeAux m1 n = varintEncodeAux m2 n := by
  intro m1
  induction m1 with
  | zero => omega
  | succ m1 ih =>
    intro m2 n h1 h2
    cases m2 with
    | zero => omega
    | succ m2 =>
      by_cases h128 : n < 128
      · simp [varintEncodeAux, h128]
      · have hlt : n / 128 < n := Nat.div_lt_self (by omega) (by omega)
        simp only [varintEncodeAux, h128, dite_false]
        rw [ih m2 (n / 128) (by omega) (by omega)]

/-- The defining recurrence of `varintEncode`. -/
theorem varintEncode_unfold (n : Nat) :
    varintEncode n =
      if h : n < 128 then [⟨n, by omega⟩]
      else ⟨n % 128 + 128, by omega⟩ :: varintEncode (n / 128) := by
  by_cases h128 : n < 128
  · simp [varintEncode, varintEncodeAux, h128]
  · have hlt : n / 128 < n := Nat.div_lt_self (by omega) (by omega)
    rw [dif_neg h128]
    have hstep : varintEncodeAux (n + 1) n =
        ⟨n % 128 + 128, by omega⟩ :: varintEncodeAux n (n / 128) := by
      simp [varintEncodeAux, h128]
    rw [varintEncode, hstep]
    congr 1
    exact varintEncodeAux_congr n (n / 128 + 1) (n / 128) (by omega) (by omega)

/-- Modelled from the spec: VarInt decoding with a fuel bound — a
VarInt that does not terminate within the byte budget of the target
integer width fails. -/
def varintDecodeAux : Nat → Dec Nat
  | 0, _ => .error .Eof
  | _ + 1, [] => .error .Eof
  | fuel + 1, b :: r =>
    if b.val < 128 then .ok (b.val, r)
    else
      match varintDecodeAux fuel r with
      | .ok (n, r') => .ok ((b.val - 128) + 128 * n, r')
      | .error e => .error e

/-- Modelled from the spec: VarInt decoding for a `u64` target: at most
10 bytes (ceil(64/7)). -/
def varintDecode : Dec Nat := varintDecodeAux 10

/-- Modelled from the spec: `decode_sized_vec!(n, d)` — loop exactly
`n` times with no length prefix. -/
def decode_sized_vec {α : Type} (dec : Dec α) : Nat → Dec (List α)
  | 0 => dpure []
  | n + 1 =>
    dbind dec (fun x => dbind (decode_sized_vec dec n) (fun xs => dpure (x :: xs)))

/-- Modelled from the spec: `encode_sized_vec!(v, s)` — each element
in order, no length prefix. -/
def encode_sized_vec {α : Type} (enc : α → List Byte) (v : List α) : List Byte :=
  (v.map enc).flatten

/-- Modelled from the spec: length-prefixed sequence decode —
`VarInt(len)` then exactly `len` elements. -/
def decodeVec {α : Type} (dec : Dec α) : Dec (List α) :=
  dbind varintDecode (fun n => decode_sized_vec dec n)

/-- Modelled from the spec: length-prefixed sequence encode. -/
def encodeVec {α : Type} (enc : α → List Byte) (v : List α) : List Byte :=
  varintEncode v.length ++ encode_sized_vec enc v

end consensus

/-! ## RingCT data model (`util/ringct.rs`) -/

namespace ringct

open consensus

/-- `Error` of `util/ringct.rs`. -/
inductive Error
  | UnknownRctType
deriving DecidableEq

/-- Raw 32-byte key. -/
structure Key where
  key : List Byte
deriving DecidableEq

/-- Raw 64-byte key. -/
structure Key64 where
  key : List Byte
deriving DecidableEq

/-- Confidential transaction key (only the mask field remains). -/
structure CtKey where
  mask : Key
deriving DecidableEq

/-- `Hash8` of `cryptonote/hash.rs`: an 8-byte hash, used for the
Bulletproof2 amount. -/
structure Hash8 where
  hash : List Byte
deriving DecidableEq

/-- Diffie-Hellman info: mask and amount before Bulletproof2, 8-byte
amount hash for Bulletproof2. -/
inductive EcdhInfo
  | Standard (mask : Key) (amount : Key)
  | Bulletproof2 (amount : Hash8)
deriving DecidableEq

/-- Borromean signature for a range commitment. -/
structure BoroSig where
  s0 : Key64
  s1 : Key64
  ee : Key
deriving DecidableEq

/-- Mg signature: a matrix of keys and the closing key cc. -/
structure MgSig where
  ss : List (List Key)
  cc : Key
deriving DecidableEq

/-- Range signature. -/
structure RangeSig where
  asig : BoroSig
  Ci : Key64
deriving DecidableEq

/-- Bulletproof. -/
structure Bulletproof where
  A : Key
  S : Key
  T1 : Key
  T2 : Key
  taux : Key
  mu : Key
  L : List Key
  R : List Key
  a : Key
  b : Key
  t : Key
deriving DecidableEq

/-- RingCT types. -/
inductive RctType
  | Null
  | Full
  | Simple
  | Bulletproof
  | Bulletproof2
deriving DecidableEq

/-- `RctType::is_rct_bp`. -/
def RctType.is_rct_bp : RctType → Bool
  | .Bulletproof | .Bulletproof2 => true
  | _ => false

/-- RingCT base signature. -/
structure RctSigBase where
  rct_type : RctType
  txn_fee : Nat
  pseudo_outs : List Key
  ecdh_info : List EcdhInfo
  out_pk : List CtKey
deriving DecidableEq

/-- Prunable part of a RingCT signature. -/
structure RctSigPrunable where
  range_sigs : List RangeSig
  bulletproofs : List Bulletproof
  MGs : List MgSig
  pseudo_outs : List Key
deriving DecidableEq

/-! ### Codecs -/

/-- `impl_consensus_encoding!(Key, key)`: 32 raw bytes. -/
def Key.consensus_decode : Dec Key :=
  dbind (readBytes 32) (fun bs => dpure ⟨bs⟩)

def Key.consensus_encode (k : Key) : List Byte := k.key

/-- `impl_consensus_encoding!(Key64, key)`: 64 raw bytes. -/
def Key64.consensus_decode : Dec Key64 :=
  dbind (readBytes 64) (fun bs => dpure ⟨bs⟩)

def Key64.consensus_encode (k : Key64) : List Byte := k.key

/-- `impl_consensus_encoding!(CtKey, mask)`. -/
def CtKey.consensus_decode : Dec CtKey :=
  dbind Key.consensus_decode (fun mask => dpure ⟨mask⟩)

def CtKey.consensus_encode (c : CtKey) : List Byte := c.mask.consensus_encode

/-- `Hash8` consensus codec: 8 raw bytes. -/
def Hash8.consensus_decode : Dec Hash8 :=
  dbind (readBytes 8) (fun bs => dpure ⟨bs⟩)

def Hash8.consensus_encode (h : Hash8) : List Byte := h.hash

/-- `impl_consensus_encoding!(BoroSig, s0, s1, ee)`. -/
def BoroSig.consensus_decode : Dec BoroSig :=
  dbind Key64.consensus_decode (fun s0 =>
    dbind Key64.consensus_decode (fun s1 =>
      dbind Key.consensus_decode (fun ee => dpure ⟨s0, s1, ee⟩)))

def BoroSig.consensus_encode (x : BoroSig) : List Byte :=
  x.s0.consensus_encode ++ x.s1.consensus_encode ++ x.ee.consensus_encode

/-- `impl_consensus_encoding!(RangeSig, asig, Ci)`. -/
def RangeSig.consensus_decode : Dec RangeSig :=
  dbind BoroSig.consensus_decode (fun asig =>
    dbind Key64.consensus_decode (fun ci => dpure ⟨asig, ci⟩))

def RangeSig.consensus_encode (x : RangeSig) : List Byte :=
  x.asig.consensus_encode ++ x.Ci.consensus_encode

/-- `impl_consensus_encoding!(Bulletproof, A, S, T1, T2, taux, mu, L, R,
a, b, t)`: `L` and `R` are length-prefixed vectors, the rest raw keys. -/
def Bulletproof.consensus_decode : Dec Bulletproof :=
  dbind Key.consensus_decode (fun kA =>
  dbind Key.consensus_decode (fun kS =>
  dbind Key.consensus_decode (fun kT1 =>
  dbind Key.consensus_decode (fun kT2 =>
  dbind Key.consensus_decode (fun taux =>
  dbind Key.consensus_decode (fun mu =>
  dbind (decodeVec Key.consensus_decode) (fun kL =>
  dbind (decodeVec Key.consensus_decode) (fun kR =>
  dbind Key.consensus_decode (fun ka =>
  dbind Key.consensus_decode (fun kb =>
  dbind Key.consensus_decode (fun kt =>
    dpure ⟨kA, kS, kT1, kT2, taux, mu, kL, kR, ka, kb, kt⟩)))))))))))

def Bulletproof.consensus_encode (x : Bulletproof) : List Byte :=
  x.A.consensus_encode ++ x.S.consensus_encode ++ x.T1.consensus_encode ++
  x.T2.consensus_encode ++ x.taux.consensus_encode ++ x.mu.consensus_encode ++
  encodeVec Key.consensus_encode x.L ++ encodeVec Key.consensus_encode x.R ++
  x.a.consensus_encode ++ x.b.consensus_encode ++ x.t.consensus_encode

/-- `MgSig` encode: each row of `ss` as a sized (unprefixed) vector,
then `cc`; there is no self-contained `MgSig` decode in the source — it
is decoded inside `RctSigPrunable::consensus_decode` from the
context-supplied row count and width, modelled by `MgSig.decodeWith`. -/
def MgSig.consensus_encode (x : MgSig) : List Byte :=
  encode_sized_vec (fun row => encode_sized_vec Key.consensus_encode row) x.ss ++
  x.cc.consensus_encode

/-- The MG-signature decode loop of `RctSigPrunable::consensus_decode`:
`rows` rows (`mixin+1` of them), each a sized vector of `width` keys,
then the closing key `cc`. -/
def MgSig.decodeWith (rows width : Nat) : Dec MgSig :=
  dbind (decode_sized_vec (decode_sized_vec Key.consensus_decode width) rows)
    (fun ss => dbind Key.consensus_decode (fun cc => dpure ⟨ss, cc⟩))

/-- `Decodable for RctType`: tag byte 0..4, otherwise
`Error::UnknownRctType`. -/
def RctType.consensus_decode : Dec RctType := fun d =>
  match decodeU8 d with
  | .error e => .error e
  | .ok (b, r) =>
    if b = 0 then .ok (.Null, r)
    else if b = 1 then .ok (.Full, r)
    else if b = 2 then .ok (.Simple, r)
    else if b = 3 then .ok (.Bulletproof, r)
    else if b = 4 then .ok (.Bulletproof2, r)
    else .error .UnknownRctType

/-- `Encodable for RctType`. -/
def RctType.consensus_encode : RctType → List Byte
  | .Null => [0]
  | .Full => [1]
  | .Simple => [2]
  | .Bulletproof => [3]
  | .Bulletproof2 => [4]

/-- `EcdhInfo::consensus_decode`: {mask, amount} key pair for every
type except Bulletproof2, which reads a single 8-byte amount. -/
def EcdhInfo.consensus_decode (rct_type : RctType) : Dec EcdhInfo :=
  match rct_type with
  | .Full | .Simple | .Bulletproof | .Null =>
    dbind Key.consensus_decode (fun mask =>
      dbind Key.consensus_decode (fun amount => dpure (.Standard mask amount)))
  | .Bulletproof2 =>
    dbind Hash8.consensus_decode (fun amount => dpure (.Bulletproof2 amount))

/-- `Encodable for EcdhInfo`. -/
def EcdhInfo.consensus_encode : EcdhInfo → List Byte
  | .Standard mask amount => mask.consensus_encode ++ amount.consensus_encode
  | .Bulletproof2 amount => amount.consensus_encode

end ringct

namespace ringct

open consensus

/-- `RctSigBase::consensus_decode(d, inputs, outputs)`: type tag, then
(for non-Null) fee VarInt, pseudo-outs (`inputs` of them, Simple only),
`outputs` EcdhInfo entries per the type branch, `outputs` CtKeys. -/
def RctSigBase.consensus_decode (inputs outputs : Nat) : Dec (Option RctSigBase) :=
  dbind RctType.consensus_decode (fun rct_type =>
    match rct_type with
    | .Null => dpure none
    | _ =>
      dbind varintDecode (fun txn_fee =>
        dbind (if rct_type = .Simple
               then decode_sized_vec Key.consensus_decode inputs
               else dpure []) (fun pseudo_outs =>
          dbind (decode_sized_vec (EcdhInfo.consensus_decode rct_type) outputs)
            (fun ecdh_info =>
              dbind (decode_sized_vec CtKey.consensus_decode outputs)
                (fun out_pk =>
                  dpure (some ⟨rct_type, txn_fee, pseudo_outs, ecdh_info, out_pk⟩))))))

/-- `Encodable for RctSigBase`: exact structural mirror of decode. -/
def RctSigBase.consensus_encode (x : RctSigBase) : List Byte :=
  x.rct_type.consensus_encode ++
  match x.rct_type with
  | .Null => []
  | _ =>
    varintEncode x.txn_fee ++
    (if x.rct_type = .Simple
     then encode_sized_vec Key.consensus_encode x.pseudo_outs
     else []) ++
    encode_sized_vec EcdhInfo.consensus_encode x.ecdh_info ++
    encode_sized_vec CtKey.consensus_encode x.out_pk

/-- `RctSigPrunable::consensus_decode(d, rct_type, inputs, outputs,
mixin)`: bulletproofs (self-describing vector for Bulletproof2, `u32`
count for Bulletproof) or `outputs` range signatures; then 1 (Full) or
`inputs` MG signatures of `mixin+1` rows of width `1+inputs` (Full) or
2; then `inputs` pseudo-out keys for the Bulletproof family. -/
def RctSigPrunable.consensus_decode (rct_type : RctType)
    (inputs outputs mixin : Nat) : Dec (Option RctSigPrunable) :=
  match rct_type with
  | .Null => dpure none
  | _ =>
    dbind (if rct_type.is_rct_bp
           then (if rct_type = .Bulletproof2
                 then dbind (decodeVec Bulletproof.consensus_decode)
                        (fun bps => dpure ([], bps))
                 else dbind decodeU32 (fun size =>
                        dbind (decode_sized_vec Bulletproof.consensus_decode size)
                          (fun bps => dpure ([], bps))))
           else dbind (decode_sized_vec RangeSig.consensus_decode outputs)
                  (fun rs => dpure (rs, [])))
      (fun rsbps =>
        let mg_elements := if rct_type = .Full then 1 else inputs
        let mg_ss2_elements := if rct_type = .Full then 1 + inputs else 2
        dbind (decode_sized_vec (MgSig.decodeWith (mixin + 1) mg_ss2_elements)
                 mg_elements)
          (fun mgs =>
            dbind (match rct_type with
                   | .Bulletproof | .Bulletproof2 =>
                     decode_sized_vec Key.consensus_decode inputs
                   | _ => dpure [])
              (fun pseudo_outs =>
                dpure (some ⟨rsbps.1, rsbps.2, mgs, pseudo_outs⟩))))

/-- `RctSigPrunable::consensus_encode(s, rct_type)`: mirror of decode;
the `u32` bulletproof count saturates via
`u32::try_from(len).unwrap_or(u32::max_value())`. -/
def RctSigPrunable.consensus_encode (rct_type : RctType)
    (x : RctSigPrunable) : List Byte :=
  match rct_type with
  | .Null => []
  | _ =>
    (if rct_type.is_rct_bp
     then (if rct_type = .Bulletproof2
           then encodeVec Bulletproof.consensus_encode x.bulletproofs
           else encodeU32 (min x.bulletproofs.length (2 ^ 32 - 1)) ++
                encode_sized_vec Bulletproof.consensus_encode x.bulletproofs)
     else encode_sized_vec RangeSig.consensus_encode x.range_sigs) ++
    encode_sized_vec MgSig.consensus_encode x.MGs ++
    (match rct_type with
     | .Bulletproof | .Bulletproof2 =>
       encode_sized_vec Key.consensus_encode x.pseudo_outs
     | _ => [])

end ringct

namespace consensus

/-- Exact-consumption round trip of a codec at a value. -/
def RT {α : Type} (enc : α → List Byte) (dec : Dec α) (x : α) : Prop :=
  ∀ r, dec (enc x ++ r) = .ok (x, r)

theorem readBytes_exact (l r : List Byte) :
    readBytes l.length (l ++ r) = .ok (l, r) := by
  simp [readBytes, List.take_left, List.drop_left]

theorem leBytes_length (w n : Nat) : (leBytes w n).length = w := by
  induction w generalizing n with
  | zero => rfl
  | succ w ih => simp [leBytes, ih]

theorem leNat_leBytes (w n : Nat) (h : n < 256 ^ w) :
    leNat (leBytes w n) = n := by
  induction w generalizing n with
  | zero => simp at h; simp [leBytes, leNat, h]
  | succ w ih =>
    have hdiv : n / 256 < 256 ^ w := by
      rw [Nat.div_lt_iff_lt_mul (by omega)]
      calc n < 256 ^ (w + 1) := h
      _ = 256 ^ w * 256 := by ring
    simp [leBytes, leNat, ih _ hdiv]
    omega

theorem decodeU32_encodeU32 (n : Nat) (h : n < 2 ^ 32) (r : List Byte) :
    decodeU32 (encodeU32 n ++ r) = .ok (n, r) := by
  have hl : (leBytes 4 n).length = 4 := leBytes_length 4 n
  have := readBytes_exact (leBytes 4 n) r
  rw [hl] at this
  simp [decodeU32, encodeU32, dbind, this, dpure, leNat_leBytes 4 n (by norm_num at h ⊢; omega)]

theorem varintDecodeAux_encode (fuel n : Nat) (h : n < 128 ^ (fuel + 1)) (r : List Byte) :
    varintDecodeAux (fuel + 1) (varintEncode n ++ r) = .ok (n, r) := by
  induction fuel generalizing n with
  | zero =>
    have h128 : n < 128 := by simpa using h
    rw [varintEncode_unfold]
    simp [h128, varintDecodeAux]
  | succ fuel ih =>
    rw [varintEncode_unfold]
    by_cases h128 : n < 128
    · simp [h128, varintDecodeAux]
    · have hdiv : n / 128 < 128 ^ (fuel + 1) := by
        rw [Nat.div_lt_iff_lt_mul (by omega)]
        calc n < 128 ^ (fuel + 2) := h
        _ = 128 ^ (fuel + 1) * 128 := by ring
      simp only [h128, dite_false, List.cons_append]
      simp [varintDecodeAux, ih _ hdiv]
      omega

theorem varintDecode_encode (n : Nat) (h : n < 2 ^ 64) (r : List Byte) :
    varintDecode (varintEncode n ++ r) = .ok (n, r) :=
  varintDecodeAux_encode 9 n (by norm_num at h ⊢; omega) r

theorem decode_sized_vec_encode {α : Type} (enc : α → List Byte) (dec : Dec α)
    (v : List α) (hv : ∀ x ∈ v, RT enc dec x) (r : List Byte) :
    decode_sized_vec dec v.length (encode_sized_vec enc v ++ r) = .ok (v, r) := by
  induction v with
  | nil => simp [encode_sized_vec, decode_sized_vec, dpure]
  | cons x xs ih =>
    have hx := hv x (by simp)
    have hxs : ∀ y ∈ xs, RT enc dec y := fun y hy => hv y (by simp [hy])
    simp only [List.length_cons, decode_sized_vec, encode_sized_vec, List.map_cons,
      List.flatten_cons, List.append_assoc]
    have ih' := ih hxs
    simp only [encode_sized_vec] at ih'
    simp [dbind, hx ((xs.map enc).flatten ++ r), ih', dpure]

theorem decodeVec_encodeVec {α : Type} (enc : α → List Byte) (dec : Dec α)
    (v : List α) (hv : ∀ x ∈ v, RT enc dec x) (hlen : v.length < 2 ^ 64)
    (r : List Byte) :
    decodeVec dec (encodeVec enc v ++ r) = .ok (v, r) := by
  simp only [decodeVec, encodeVec, List.append_assoc]
  simp [dbind, varintDecode_encode v.length hlen, decode_sized_vec_encode enc dec v hv r]

end consensus

namespace ringct

open consensus

def Key.WF (k : Key) : Prop := k.key.length = 32

def Key64.WF (k : Key64) : Prop := k.key.length = 64

def Hash8.WF (h : Hash8) : Prop := h.hash.length = 8

def CtKey.WF (c : CtKey) : Prop := c.mask.WF

def BoroSig.WF (x : BoroSig) : Prop := x.s0.WF ∧ x.s1.WF ∧ x.ee.WF

def RangeSig.WF (x : RangeSig) : Prop := x.asig.WF ∧ x.Ci.WF

def Bulletproof.WF (x : Bulletproof) : Prop :=
  x.A.WF ∧ x.S.WF ∧ x.T1.WF ∧ x.T2.WF ∧ x.taux.WF ∧ x.mu.WF ∧
  (∀ k ∈ x.L, k.WF) ∧ x.L.length < 2 ^ 64 ∧
  (∀ k ∈ x.R, k.WF) ∧ x.R.length < 2 ^ 64 ∧
  x.a.WF ∧ x.b.WF ∧ x.t.WF

def EcdhInfo.WF : EcdhInfo → Prop
  | .Standard mask amount => mask.WF ∧ amount.WF
  | .Bulletproof2 amount => amount.WF

/-- The EcdhInfo variant agrees with the governing RingCT type. -/
def EcdhInfo.matchesType (t : RctType) : EcdhInfo → Prop
  | .Standard _ _ => t ≠ .Bulletproof2
  | .Bulletproof2 _ => t = .Bulletproof2

theorem Key_rt (k : Key) (h : k.WF) (r : List Byte) :
    Key.consensus_decode (Key.consensus_encode k ++ r) = .ok (k, r) := by
  have h32 := readBytes_exact k.key r
  rw [h] at h32
  simp [Key.consensus_decode, Key.consensus_encode, dbind, h32, dpure]

theorem Key64_rt (k : Key64) (h : k.WF) (r : List Byte) :
    Key64.consensus_decode (Key64.consensus_encode k ++ r) = .ok (k, r) := by
  have h64 := readBytes_exact k.key r
  rw [h] at h64
  simp [Key64.consensus_decode, Key64.consensus_encode, dbind, h64, dpure]

theorem Hash8_rt (k : Hash8) (h : k.WF) (r : List Byte) :
    Hash8.consensus_decode (Hash8.consensus_encode k ++ r) = .ok (k, r) := by
  have h8 := readBytes_exact k.hash r
  rw [h] at h8
  simp [Hash8.consensus_decode, Hash8.consensus_encode, dbind, h8, dpure]

theorem CtKey_rt (c : CtKey) (h : c.WF) (r : List Byte) :
    CtKey.consensus_decode (CtKey.consensus_encode c ++ r) = .ok (c, r) := by
  simp [CtKey.consensus_decode, CtKey.consensus_encode, dbind, dpure, Key_rt c.mask h]

theorem BoroSig_rt (x : BoroSig) (h : x.WF) (r : List Byte) :
    BoroSig.consensus_decode (BoroSig.consensus_encode x ++ r) = .ok (x, r) := by
  obtain ⟨h0, h1, he⟩ := h
  simp only [BoroSig.consensus_encode, List.append_assoc]
  simp [BoroSig.consensus_decode, dbind, dpure, Key64_rt _ h0, Key64_rt _ h1, Key_rt _ he]

theorem RangeSig_rt (x : RangeSig) (h : x.WF) (r : List Byte) :
    RangeSig.consensus_decode (RangeSig.consensus_encode x ++ r) = .ok (x, r) := by
  obtain ⟨ha, hc⟩ := h
  simp only [RangeSig.consensus_encode, List.append_assoc]
  simp [RangeSig.consensus_decode, dbind, dpure, BoroSig_rt _ ha, Key64_rt _ hc]

theorem Bulletproof_rt (x : Bulletproof) (h : x.WF) (r : List Byte) :
    Bulletproof.consensus_decode (Bulletproof.consensus_encode x ++ r) = .ok (x, r) := by
  obtain ⟨hA, hS, hT1, hT2, htaux, hmu, hL, hLl, hR, hRl, ha, hb, ht⟩ := h
  simp only [Bulletproof.consensus_encode, List.append_assoc]
  simp [Bulletproof.consensus_decode, dbind, dpure,
    Key_rt _ hA, Key_rt _ hS, Key_rt _ hT1, Key_rt _ hT2, Key_rt _ htaux,
    Key_rt _ hmu, Key_rt _ ha, Key_rt _ hb, Key_rt _ ht,
    decodeVec_encodeVec Key.consensus_encode Key.consensus_decode x.L
      (fun k hk r' => Key_rt k (hL k hk) r') hLl,
    decodeVec_encodeVec Key.consensus_encode Key.consensus_decode x.R
      (fun k hk r' => Key_rt k (hR k hk) r') hRl]

theorem EcdhInfo_rt (t : RctType) (e : EcdhInfo) (hwf : e.WF) (hm : e.matchesType t)
    (r : List Byte) :
    EcdhInfo.consensus_decode t (EcdhInfo.consensus_encode e ++ r) = .ok (e, r) := by
  cases e with
  | Standard mask amount =>
    obtain ⟨hm32, ha32⟩ := hwf
    have ht : t ≠ .Bulletproof2 := hm
    cases t <;> try exact absurd rfl ht
    all_goals
      simp only [EcdhInfo.consensus_encode, List.append_assoc]
      simp [EcdhInfo.consensus_decode, dbind, dpure, Key_rt _ hm32, Key_rt _ ha32]
  | Bulletproof2 amount =>
    have ht : t = .Bulletproof2 := hm
    subst ht
    simp [EcdhInfo.consensus_encode, EcdhInfo.consensus_decode, dbind, dpure,
      Hash8_rt _ hwf]

theorem MgSig_rt (x : MgSig) (rows width : Nat)
    (hrows : x.ss.length = rows)
    (hrow : ∀ row ∈ x.ss, row.length = width ∧ ∀ k ∈ row, k.WF)
    (hcc : x.cc.WF) (r : List Byte) :
    MgSig.decodeWith rows width (MgSig.consensus_encode x ++ r) = .ok (x, r) := by
  subst hrows
  simp only [MgSig.consensus_encode, List.append_assoc]
  have hsized : ∀ row ∈ x.ss, ∀ r',
      decode_sized_vec Key.consensus_decode width
        (encode_sized_vec Key.consensus_encode row ++ r') = .ok (row, r') := by
    intro row hr r'
    obtain ⟨hw, hks⟩ := hrow row hr
    subst hw
    exact decode_sized_vec_encode _ _ row (fun k hk r'' => Key_rt k (hks k hk) r'') r'
  have houter := decode_sized_vec_encode
    (fun row => encode_sized_vec Key.consensus_encode row)
    (decode_sized_vec Key.consensus_decode width) x.ss hsized
    (Key.consensus_encode x.cc ++ r)
  simp [MgSig.decodeWith, dbind, dpure, houter, Key_rt _ hcc]

end ringct

namespace ringct

open consensus

theorem RctType_rt (t : RctType) (r : List Byte) :
    RctType.consensus_decode (RctType.consensus_encode t ++ r) = .ok (t, r) := by
  cases t <;> rfl

/-- Field lengths and EcdhInfo variants of a base signature consistent
with its own type and the context counts (the caller obligation of
section 7 of the specification). -/
def RctSigBase.Consistent (inputs outputs : Nat) (x : RctSigBase) : Prop :=
  x.rct_type ≠ .Null ∧ x.txn_fee < 2 ^ 64 ∧
  (if x.rct_type = .Simple then x.pseudo_outs.length = inputs
   else x.pseudo_outs = []) ∧
  (∀ k ∈ x.pseudo_outs, k.WF) ∧
  x.ecdh_info.length = outputs ∧
  (∀ e ∈ x.ecdh_info, e.WF ∧ e.matchesType x.rct_type) ∧
  x.out_pk.length = outputs ∧ (∀ c ∈ x.out_pk, c.WF)

theorem RctSigBase_rt (inputs outputs : Nat) (x : RctSigBase)
    (hc : x.Consistent inputs outputs) (r : List Byte) :
    RctSigBase.consensus_decode inputs outputs
      (RctSigBase.consensus_encode x ++ r) = .ok (some x, r) := by
  obtain ⟨t, fee, po, ei, op⟩ := x
  simp only [RctSigBase.Consistent] at hc
  obtain ⟨hnn, hfee, hpo, hpoWF, hei, heiWF, hop, hopWF⟩ := hc
  have heiRT : ∀ e ∈ ei, ∀ r', EcdhInfo.consensus_decode t
      (EcdhInfo.consensus_encode e ++ r') = .ok (e, r') := by
    intro e he r'
    exact EcdhInfo_rt t e (heiWF e he).1 (heiWF e he).2 r'
  have hopV : ∀ r', decode_sized_vec CtKey.consensus_decode outputs
      (encode_sized_vec CtKey.consensus_encode op ++ r') = .ok (op, r') := by
    intro r'
    rw [← hop]
    exact decode_sized_vec_encode _ _ op (fun c hcm r'' => CtKey_rt c (hopWF c hcm) r'') r'
  have heiV : ∀ r', decode_sized_vec (EcdhInfo.consensus_decode t) outputs
      (encode_sized_vec EcdhInfo.consensus_encode ei ++ r') = .ok (ei, r') := by
    intro r'
    rw [← hei]
    exact decode_sized_vec_encode _ _ ei heiRT r'
  cases t with
  | Null => exact absurd rfl hnn
  | Simple =>
    rw [if_pos rfl] at hpo
    have hpoV : ∀ r', decode_sized_vec Key.consensus_decode inputs
        (encode_sized_vec Key.consensus_encode po ++ r') = .ok (po, r') := by
      intro r'
      rw [← hpo]
      exact decode_sized_vec_encode _ _ po (fun k hk r'' => Key_rt k (hpoWF k hk) r'') r'
    simp only [RctSigBase.consensus_encode, RctSigBase.consensus_decode,
      List.append_assoc, if_pos rfl]
    simp [dbind, dpure, RctType_rt, varintDecode_encode _ hfee, hpoV, heiV, hopV]
  | Full =>
    rw [if_neg (by simp)] at hpo
    simp only [RctSigBase.consensus_encode, RctSigBase.consensus_decode,
      List.append_assoc]
    simp [dbind, dpure, RctType_rt, varintDecode_encode _ hfee, heiV, hopV, hpo]
  | Bulletproof =>
    rw [if_neg (by simp)] at hpo
    simp only [RctSigBase.consensus_encode, RctSigBase.consensus_decode,
      List.append_assoc]
    simp [dbind, dpure, RctType_rt, varintDecode_encode _ hfee, heiV, hopV, hpo]
  | Bulletproof2 =>
    rw [if_neg (by simp)] at hpo
    simp only [RctSigBase.consensus_encode, RctSigBase.consensus_decode,
      List.append_assoc]
    simp [dbind, dpure, RctType_rt, varintDecode_encode _ hfee, heiV, hopV, hpo]

end ringct

namespace ringct

open consensus

/-- Field lengths of a prunable signature consistent with the governing
type and the (inputs, outputs, mixin) context. -/
def RctSigPrunable.Consistent (t : RctType) (inputs outputs mixin : Nat)
    (x : RctSigPrunable) : Prop :=
  t ≠ .Null ∧
  (if t.is_rct_bp then
     x.range_sigs = [] ∧ (∀ bp ∈ x.bulletproofs, bp.WF) ∧
     (if t = .Bulletproof2 then x.bulletproofs.length < 2 ^ 64
      else x.bulletproofs.length < 2 ^ 32)
   else
     x.bulletproofs = [] ∧ x.range_sigs.length = outputs ∧
     ∀ rs ∈ x.range_sigs, rs.WF) ∧
  x.MGs.length = (if t = .Full then 1 else inputs) ∧
  (∀ mg ∈ x.MGs, mg.ss.length = mixin + 1 ∧ mg.cc.WF ∧
    ∀ row ∈ mg.ss,
      row.length = (if t = .Full then 1 + inputs else 2) ∧ ∀ k ∈ row, k.WF) ∧
  (match t with
   | .Bulletproof | .Bulletproof2 => x.pseudo_outs.length = inputs
   | _ => x.pseudo_outs = []) ∧
  (∀ k ∈ x.pseudo_outs, k.WF)

theorem RctSigPrunable_rt (t : RctType) (inputs outputs mixin : Nat)
    (x : RctSigPrunable) (hc : x.Consistent t inputs outputs mixin)
    (r : List Byte) :
    RctSigPrunable.consensus_decode t inputs outputs mixin
      (RctSigPrunable.consensus_encode t x ++ r) = .ok (some x, r) := by
  obtain ⟨rs, bps, mgs, po⟩ := x
  simp only [RctSigPrunable.Consistent] at hc
  obtain ⟨hnn, hfront, hmgl, hmgWF, hpol, hpoWF⟩ := hc
  cases t with
  | Null => exact absurd rfl hnn
  | Simple =>
    simp only [RctType.is_rct_bp, Bool.false_eq_true, if_false, reduceCtorEq,
      if_neg] at hfront hmgl hpol
    obtain ⟨hbps, hrsl, hrsWF⟩ := hfront
    subst hbps
    have hrsV : ∀ r', decode_sized_vec RangeSig.consensus_decode outputs
        (encode_sized_vec RangeSig.consensus_encode rs ++ r') = .ok (rs, r') := by
      intro r'
      rw [← hrsl]
      exact decode_sized_vec_encode _ _ rs (fun z hz r'' => RangeSig_rt z (hrsWF z hz) r'') r'
    have hmgV : ∀ r', decode_sized_vec (MgSig.decodeWith (mixin + 1) 2) inputs
        (encode_sized_vec MgSig.consensus_encode mgs ++ r') = .ok (mgs, r') := by
      intro r'
      have base := decode_sized_vec_encode MgSig.consensus_encode
        (MgSig.decodeWith (mixin + 1) 2) mgs (fun mg hmg r'' => by
          obtain ⟨h1, h2, h3⟩ := hmgWF mg hmg
          exact MgSig_rt mg (mixin + 1) 2 h1 (fun row hr => (h3 row hr)) h2 r'') r'
      rwa [hmgl] at base
    subst hpol
    simp only [RctSigPrunable.consensus_encode, RctSigPrunable.consensus_decode,
      List.append_assoc, RctType.is_rct_bp]
    simp [dbind, dpure, hrsV, hmgV]
  | Full =>
    simp only [RctType.is_rct_bp, Bool.false_eq_true, if_false, reduceCtorEq,
      if_neg, if_pos] at hfront hmgl hpol
    obtain ⟨hbps, hrsl, hrsWF⟩ := hfront
    subst hbps
    have hrsV : ∀ r', decode_sized_vec RangeSig.consensus_decode outputs
        (encode_sized_vec RangeSig.consensus_encode rs ++ r') = .ok (rs, r') := by
      intro r'
      rw [← hrsl]
      exact decode_sized_vec_encode _ _ rs (fun z hz r'' => RangeSig_rt z (hrsWF z hz) r'') r'
    have hmgV : ∀ r', decode_sized_vec (MgSig.decodeWith (mixin + 1) (1 + inputs)) 1
        (encode_sized_vec MgSig.consensus_encode mgs ++ r') = .ok (mgs, r') := by
      intro r'
      have base := decode_sized_vec_encode MgSig.consensus_encode
        (MgSig.decodeWith (mixin + 1) (1 + inputs)) mgs (fun mg hmg r'' => by
          obtain ⟨h1, h2, h3⟩ := hmgWF mg hmg
          exact MgSig_rt mg (mixin + 1) (1 + inputs) h1 (fun row hr => (h3 row hr)) h2 r'') r'
      rwa [hmgl] at base
    subst hpol
    simp only [RctSigPrunable.consensus_encode, RctSigPrunable.consensus_decode,
      List.append_assoc, RctType.is_rct_bp]
    simp [dbind, dpure, hrsV, hmgV]
  | Bulletproof =>
    simp only [RctType.is_rct_bp, if_pos, reduceCtorEq, if_neg, if_false] at hfront hmgl hpol
    obtain ⟨hrs, hbpWF, hbpl⟩ := hfront
    subst hrs
    have hminl : min bps.length 4294967295 = bps.length := by omega
    have hu32 : ∀ r', decodeU32 (encodeU32 (min bps.length 4294967295) ++ r') =
        .ok (bps.length, r') := by
      intro r'
      rw [hminl]
      exact decodeU32_encodeU32 bps.length (by omega) r'
    have hbpV : ∀ r', decode_sized_vec Bulletproof.consensus_decode bps.length
        (encode_sized_vec Bulletproof.consensus_encode bps ++ r') = .ok (bps, r') := by
      intro r'
      exact decode_sized_vec_encode _ _ bps (fun z hz r'' => Bulletproof_rt z (hbpWF z hz) r'') r'
    have hmgV : ∀ r', decode_sized_vec (MgSig.decodeWith (mixin + 1) 2) inputs
        (encode_sized_vec MgSig.consensus_encode mgs ++ r') = .ok (mgs, r') := by
      intro r'
      have base := decode_sized_vec_encode MgSig.consensus_encode
        (MgSig.decodeWith (mixin + 1) 2) mgs (fun mg hmg r'' => by
          obtain ⟨h1, h2, h3⟩ := hmgWF mg hmg
          exact MgSig_rt mg (mixin + 1) 2 h1 (fun row hr => (h3 row hr)) h2 r'') r'
      rwa [hmgl] at base
    have hpoV : ∀ r', decode_sized_vec Key.consensus_decode inputs
        (encode_sized_vec Key.consensus_encode po ++ r') = .ok (po, r') := by
      intro r'
      rw [← hpol]
      exact decode_sized_vec_encode _ _ po (fun k hk r'' => Key_rt k (hpoWF k hk) r'') r'
    simp only [RctSigPrunable.consensus_encode, RctSigPrunable.consensus_decode,
      List.append_assoc, RctType.is_rct_bp]
    simp [dbind, dpure, hu32, hbpV, hmgV, hpoV]
  | Bulletproof2 =>
    simp only [RctType.is_rct_bp, if_pos, reduceCtorEq, if_neg, if_false] at hfront hmgl hpol
    obtain ⟨hrs, hbpWF, hbpl⟩ := hfront
    subst hrs
    have hbpV : ∀ r', decodeVec Bulletproof.consensus_decode
        (encodeVec Bulletproof.consensus_encode bps ++ r') = .ok (bps, r') := by
      intro r'
      exact decodeVec_encodeVec _ _ bps
        (fun z hz r'' => Bulletproof_rt z (hbpWF z hz) r'') hbpl r'
    have hmgV : ∀ r', decode_sized_vec (MgSig.decodeWith (mixin + 1) 2) inputs
        (encode_sized_vec MgSig.consensus_encode mgs ++ r') = .ok (mgs, r') := by
      intro r'
      have base := decode_sized_vec_encode MgSig.consensus_encode
        (MgSig.decodeWith (mixin + 1) 2) mgs (fun mg hmg r'' => by
          obtain ⟨h1, h2, h3⟩ := hmgWF mg hmg
          exact MgSig_rt mg (mixin + 1) 2 h1 (fun row hr => (h3 row hr)) h2 r'') r'
      rwa [hmgl] at base
    have hpoV : ∀ r', decode_sized_vec Key.consensus_decode inputs
        (encode_sized_vec Key.consensus_encode po ++ r') = .ok (po, r') := by
      intro r'
      rw [← hpol]
      exact decode_sized_vec_encode _ _ po (fun k hk r'' => Key_rt k (hpoWF k hk) r'') r'
    simp only [RctSigPrunable.consensus_encode, RctSigPrunable.consensus_decode,
      List.append_assoc, RctType.is_rct_bp]
    simp [dbind, dpure, hbpV, hmgV, hpoV]

end ringct

/-! ## Claim C2 -/

/-- C2: for every RctType and every base/prunable signature whose field
lengths and EcdhInfo variants are consistent with the type and the
(inputs, outputs, mixin) context, decoding the encoding under the same
context yields the value back (base part via
`RctSigBase::consensus_encode` / `consensus_decode(d, inputs, outputs)`,
prunable part via `RctSigPrunable::consensus_encode(s, t)` /
`consensus_decode(d, t, inputs, outputs, mixin)`). A Null-typed present
value is not consistent: Null encodes as the bare tag and decodes to
the absent signature. -/
theorem ringct_round_trip :
    (∀ (inputs outputs : Nat) (x : ringct.RctSigBase),
      x.Consistent inputs outputs →
      ringct.RctSigBase.consensus_decode inputs outputs
        (ringct.RctSigBase.consensus_encode x) = .ok (some x, [])) ∧
    (∀ (t : ringct.RctType) (inputs outputs mixin : Nat)
        (x : ringct.RctSigPrunable),
      x.Consistent t inputs outputs mixin →
      ringct.RctSigPrunable.consensus_decode t inputs outputs mixin
        (ringct.RctSigPrunable.consensus_encode t x) = .ok (some x, [])) := by
  constructor
  · intro inputs outputs x hc
    have h := ringct.RctSigBase_rt inputs outputs x hc []
    simpa using h
  · intro t inputs outputs mixin x hc
    have h := ringct.RctSigPrunable_rt t inputs outputs mixin x hc []
    simpa using h

namespace ringct

/-- A concrete 32-byte key for witnesses. -/
def keyW (x : Byte) : Key := ⟨List.replicate 32 x⟩

/-- A concrete Bulletproof for witnesses. -/
def bpW : Bulletproof :=
  ⟨keyW 1, keyW 2, keyW 3, keyW 4, keyW 5, keyW 6, [keyW 7, keyW 8], [keyW 9],
   keyW 10, keyW 11, keyW 12⟩

/-- A concrete MG signature (2 rows of width 2) for witnesses. -/
def mgW : MgSig := ⟨[[keyW 1, keyW 2], [keyW 3, keyW 4]], keyW 5⟩

/-- A concrete Bulletproof2 base signature (1 input, 1 output) for
witnesses. -/
def baseW : RctSigBase :=
  ⟨.Bulletproof2, 1234567, [], [.Bulletproof2 ⟨List.replicate 8 9⟩], [⟨keyW 13⟩]⟩

/-- A concrete Bulletproof2 prunable signature (1 input, 1 output,
mixin 1) for witnesses. -/
def prunW : RctSigPrunable := ⟨[], [bpW], [mgW], [keyW 14]⟩

end ringct

/-- Witness for C2: the round trip at a concrete Bulletproof2 signature
with inputs = 1, outputs = 1, mixin = 1. -/
theorem ringct_round_trip_witness :
    ringct.RctSigBase.Consistent 1 1 ringct.baseW ∧
    ringct.RctSigPrunable.Consistent .Bulletproof2 1 1 1 ringct.prunW ∧
    ringct.RctSigBase.consensus_decode 1 1
      (ringct.RctSigBase.consensus_encode ringct.baseW) =
        .ok (some ringct.baseW, []) ∧
    ringct.RctSigPrunable.consensus_decode .Bulletproof2 1 1 1
      (ringct.RctSigPrunable.consensus_encode .Bulletproof2 ringct.prunW) =
        .ok (some ringct.prunW, []) := by
  have hb : ringct.RctSigBase.Consistent 1 1 ringct.baseW := by
    simp [ringct.RctSigBase.Consistent, ringct.baseW, ringct.EcdhInfo.WF,
      ringct.EcdhInfo.matchesType, ringct.Hash8.WF, ringct.CtKey.WF,
      ringct.Key.WF, ringct.keyW]
  have hp : ringct.RctSigPrunable.Consistent .Bulletproof2 1 1 1 ringct.prunW := by
    simp [ringct.RctSigPrunable.Consistent, ringct.prunW, ringct.RctType.is_rct_bp,
      ringct.Bulletproof.WF, ringct.bpW, ringct.mgW, ringct.MgSig.ss,
      ringct.Key.WF, ringct.keyW]
  exact ⟨hb, hp, ringct_round_trip.1 1 1 ringct.baseW hb,
    ringct_round_trip.2 .Bulletproof2 1 1 1 ringct.prunW hp⟩

/-! ## Claim C9 -/

/-- C9: tag byte 4 decodes to Bulletproof2; the Bulletproof2 EcdhInfo
branch reads exactly one 8-byte amount field; every other RctType reads
a {mask, amount} pair of two 32-byte keys; a tag byte of 5 or greater
fails with `UnknownRctType`. -/
theorem rct_type_tag_ecdh_branches :
    (∀ r : List Byte, ringct.RctType.consensus_decode (4 :: r) =
      .ok (.Bulletproof2, r)) ∧
    (∀ (b : Byte) (r : List Byte), 5 ≤ b.val →
      ringct.RctType.consensus_decode (b :: r) =
        .error .UnknownRctType) ∧
    (∀ d : List Byte, 8 ≤ d.length →
      ringct.EcdhInfo.consensus_decode .Bulletproof2 d =
        .ok (.Bulletproof2 ⟨d.take 8⟩, d.drop 8)) ∧
    (∀ (t : ringct.RctType) (d : List Byte), t ≠ .Bulletproof2 → 64 ≤ d.length →
      ringct.EcdhInfo.consensus_decode t d =
        .ok (.Standard ⟨d.take 32⟩ ⟨(d.drop 32).take 32⟩, (d.drop 32).drop 32)) := by
  refine ⟨fun r => rfl, ?_, ?_, ?_⟩
  · intro b r hb
    have h0 : ¬ b = 0 := by simp [Fin.ext_iff]; omega
    have h1 : ¬ b = 1 := by simp [Fin.ext_iff]; omega
    have h2 : ¬ b = 2 := by simp [Fin.ext_iff]; omega
    have h3 : ¬ b = 3 := by simp [Fin.ext_iff]; omega
    have h4 : ¬ b = 4 := by simp [Fin.ext_iff]; omega
    simp [ringct.RctType.consensus_decode, consensus.decodeU8, h0, h1, h2, h3, h4]
  · intro d hd
    have h := consensus.readBytes_exact (d.take 8) (d.drop 8)
    rw [List.length_take, Nat.min_eq_left hd, List.take_append_drop] at h
    simp [ringct.EcdhInfo.consensus_decode, ringct.Hash8.consensus_decode,
      consensus.dbind, consensus.dpure, h]
  · intro t d ht hd
    have h32 : 32 ≤ d.length := by omega
    have h1 := consensus.readBytes_exact (d.take 32) (d.drop 32)
    rw [List.length_take, Nat.min_eq_left h32, List.take_append_drop] at h1
    have h32b : 32 ≤ (d.drop 32).length := by simp [List.length_drop]; omega
    have h2 := consensus.readBytes_exact ((d.drop 32).take 32) ((d.drop 32).drop 32)
    rw [List.length_take, Nat.min_eq_left h32b, List.take_append_drop] at h2
    cases t <;> try exact absurd rfl ht
    all_goals
      simp [ringct.EcdhInfo.consensus_decode, ringct.Key.consensus_decode,
        consensus.dbind, consensus.dpure, h1, h2]

/-- Witness for C9: concrete tag bytes 4 and 7, and concrete 8-byte and
64-byte cursors for the two EcdhInfo branches. -/
theorem rct_type_tag_ecdh_branches_witness :
    ringct.RctType.consensus_decode [4, 9] = .ok (.Bulletproof2, [9]) ∧
    ringct.RctType.consensus_decode [7] = .error .UnknownRctType ∧
    ringct.EcdhInfo.consensus_decode .Bulletproof2 (List.replicate 8 3 ++ [7]) =
      .ok (.Bulletproof2 ⟨(List.replicate 8 3 ++ [7] : List Byte).take 8⟩,
           (List.replicate 8 3 ++ [7] : List Byte).drop 8) ∧
    ringct.EcdhInfo.consensus_decode .Full (List.replicate 64 6) =
      .ok (.Standard ⟨(List.replicate 64 6 : List Byte).take 32⟩
             ⟨((List.replicate 64 6 : List Byte).drop 32).take 32⟩,
           ((List.replicate 64 6 : List Byte).drop 32).drop 32) :=
  ⟨rct_type_tag_ecdh_branches.1 [9],
   rct_type_tag_ecdh_branches.2.1 7 [] (by decide),
   rct_type_tag_ecdh_branches.2.2.1 (List.replicate 8 3 ++ [7]) (by decide),
   rct_type_tag_ecdh_branches.2.2.2 .Full (List.replicate 64 6) (by decide) (by decide)⟩

namespace consensus

theorem dbind_eq_ok {α β : Type} (p : Dec α) (f : α → Dec β) (d : List Byte)
    (z : β × List Byte) :
    dbind p f d = .ok z ↔ ∃ a d1, p d = .ok (a, d1) ∧ f a d1 = .ok z := by
  unfold dbind
  cases hp : p d with
  | error e => simp
  | ok w =>
    obtain ⟨a, d1⟩ := w
    constructor
    · intro h
      exact ⟨a, d1, rfl, h⟩
    · rintro ⟨a2, d2, he, h⟩
      injection he with he2
      injection he2 with h1 h2
      subst h1
      subst h2
      exact h

theorem dpure_eq_ok {α : Type} (a : α) (d : List Byte) (z : α × List Byte) :
    dpure a d = .ok z ↔ z = (a, d) := by
  unfold dpure
  constructor
  · intro h
    cases h
    rfl
  · intro h
    rw [h]

theorem decode_sized_vec_length {α : Type} (dec : Dec α) (n : Nat)
    (d : List Byte) (v : List α) (rest : List Byte)
    (h : decode_sized_vec dec n d = .ok (v, rest)) : v.length = n := by
  induction n generalizing d v with
  | zero =>
    rw [decode_sized_vec, dpure_eq_ok] at h
    simp only [Prod.mk.injEq] at h
    obtain ⟨rfl, rfl⟩ := h
    rfl
  | succ n ih =>
    rw [decode_sized_vec, dbind_eq_ok] at h
    obtain ⟨a, d1, ha, h⟩ := h
    rw [dbind_eq_ok] at h
    obtain ⟨xs, d2, hxs, h⟩ := h
    rw [dpure_eq_ok] at h
    simp only [Prod.mk.injEq] at h
    obtain ⟨rfl, rfl⟩ := h
    simp [ih d1 xs hxs]

theorem decode_sized_vec_mem {α : Type} (dec : Dec α) (P : α → Prop)
    (hP : ∀ d y r', dec d = .ok (y, r') → P y) (n : Nat)
    (d : List Byte) (v : List α) (rest : List Byte)
    (h : decode_sized_vec dec n d = .ok (v, rest)) : ∀ y ∈ v, P y := by
  induction n generalizing d v with
  | zero =>
    rw [decode_sized_vec, dpure_eq_ok] at h
    simp only [Prod.mk.injEq] at h
    obtain ⟨rfl, rfl⟩ := h
    simp
  | succ n ih =>
    rw [decode_sized_vec, dbind_eq_ok] at h
    obtain ⟨a, d1, ha, h⟩ := h
    rw [dbind_eq_ok] at h
    obtain ⟨xs, d2, hxs, h⟩ := h
    rw [dpure_eq_ok] at h
    simp only [Prod.mk.injEq] at h
    obtain ⟨rfl, rfl⟩ := h
    intro y hy
    rcases List.mem_cons.mp hy with hy | hy
    · exact hy ▸ hP d a d1 ha
    · exact ih d1 xs hxs y hy

theorem readBytes_eq_ok (n : Nat) (d bs rest : List Byte)
    (h : readBytes n d = .ok (bs, rest)) : bs.length = n := by
  unfold readBytes at h
  by_cases hl : n ≤ d.length
  · rw [if_pos hl] at h
    cases h
    simp [List.length_take, Nat.min_eq_left hl]
  · rw [if_neg hl] at h
    cases h

end consensus

namespace ringct

open consensus

theorem Key_decode_length (d : List Byte) (k : Key) (rest : List Byte)
    (h : Key.consensus_decode d = .ok (k, rest)) : k.key.length = 32 := by
  rw [Key.consensus_decode, dbind_eq_ok] at h
  obtain ⟨bs, d1, hbs, h⟩ := h
  rw [dpure_eq_ok] at h
  simp only [Prod.mk.injEq] at h
  obtain ⟨rfl, rfl⟩ := h
  exact readBytes_eq_ok 32 d bs _ hbs

theorem MgSig_decodeWith_shape (rows width : Nat) (d : List Byte) (mg : MgSig)
    (rest : List Byte) (h : MgSig.decodeWith rows width d = .ok (mg, rest)) :
    mg.ss.length = rows ∧ mg.cc.key.length = 32 ∧
    ∀ row ∈ mg.ss, row.length = width ∧ ∀ k ∈ row, k.key.length = 32 := by
  rw [MgSig.decodeWith, dbind_eq_ok] at h
  obtain ⟨ss, d1, hss, h⟩ := h
  rw [dbind_eq_ok] at h
  obtain ⟨cc, d2, hcc, h⟩ := h
  rw [dpure_eq_ok] at h
  simp only [Prod.mk.injEq] at h
  obtain ⟨rfl, rfl⟩ := h
  refine ⟨decode_sized_vec_length _ rows d ss d1 hss,
    Key_decode_length d1 cc _ hcc, ?_⟩
  exact decode_sized_vec_mem _ _
    (fun dr row r' hrow =>
      ⟨decode_sized_vec_length _ width dr row r' hrow,
       decode_sized_vec_mem _ _ (fun dk k rk hk => Key_decode_length dk k rk hk)
         width dr row r' hrow⟩)
    rows d ss d1 hss

end ringct

/-! ## Claim C8 -/

/-- C8: for every RctType other than Null, a successful
`RctSigPrunable::consensus_decode` reads exactly 1 MG signature when the
type is Full and exactly `inputs` MG signatures otherwise; each MG
signature has `mixin + 1` rows, each row a vector of keys of length
`1 + inputs` (Full) or 2, followed by one closing 32-byte key `cc`. -/
theorem mg_signature_shape (t : ringct.RctType) (inputs outputs mixin : Nat)
    (d rest : List Byte) (x : ringct.RctSigPrunable)
    (hnn : t ≠ .Null)
    (h : ringct.RctSigPrunable.consensus_decode t inputs outputs mixin d =
      .ok (some x, rest)) :
    x.MGs.length = (if t = .Full then 1 else inputs) ∧
    ∀ mg ∈ x.MGs, mg.ss.length = mixin + 1 ∧ mg.cc.key.length = 32 ∧
      ∀ row ∈ mg.ss,
        row.length = (if t = .Full then 1 + inputs else 2) ∧
        ∀ k ∈ row, k.key.length = 32 := by
  have main : ∀ (front : consensus.Dec (List ringct.RangeSig × List ringct.Bulletproof))
      (tail : consensus.Dec (List ringct.Key)) (rows width count : Nat),
      (consensus.dbind front (fun rsbps =>
        consensus.dbind (consensus.decode_sized_vec
            (ringct.MgSig.decodeWith rows width) count)
          (fun mgs => consensus.dbind tail
            (fun pseudo_outs =>
              consensus.dpure (some ⟨rsbps.1, rsbps.2, mgs, pseudo_outs⟩))))) d =
        .ok (some x, rest) →
      x.MGs.length = count ∧
      ∀ mg ∈ x.MGs, mg.ss.length = rows ∧ mg.cc.key.length = 32 ∧
        ∀ row ∈ mg.ss, row.length = width ∧ ∀ k ∈ row, k.key.length = 32 := by
    intro front tail rows width count hh
    rw [consensus.dbind_eq_ok] at hh
    obtain ⟨rsbps, d1, hfront, hh⟩ := hh
    rw [consensus.dbind_eq_ok] at hh
    obtain ⟨mgs, d2, hmgs, hh⟩ := hh
    rw [consensus.dbind_eq_ok] at hh
    obtain ⟨po, d3, hpo, hh⟩ := hh
    rw [consensus.dpure_eq_ok] at hh
    simp only [Prod.mk.injEq, Option.some.injEq] at hh
    obtain ⟨rfl, rfl⟩ := hh
    refine ⟨consensus.decode_sized_vec_length _ count d1 mgs d2 hmgs, ?_⟩
    exact consensus.decode_sized_vec_mem _ _
      (fun dm mg rm hm => by
        obtain ⟨h1, h2, h3⟩ := ringct.MgSig_decodeWith_shape rows width dm mg rm hm
        exact ⟨h1, h2, h3⟩)
      count d1 mgs d2 hmgs
  cases t with
  | Null => exact absurd rfl hnn
  | Full => exact main _ _ (mixin + 1) (1 + inputs) 1 h
  | Simple => exact main _ _ (mixin + 1) 2 inputs h
  | Bulletproof => exact main _ _ (mixin + 1) 2 inputs h
  | Bulletproof2 => exact main _ _ (mixin + 1) 2 inputs h

/-- Witness for C8: the MG shape of a concrete decoded Bulletproof2
prunable signature with inputs = 1, outputs = 1, mixin = 1. -/
theorem mg_signature_shape_witness :
    ringct.prunW.MGs.length = (if ringct.RctType.Bulletproof2 = .Full then 1 else 1) ∧
    ∀ mg ∈ ringct.prunW.MGs, mg.ss.length = 1 + 1 ∧ mg.cc.key.length = 32 ∧
      ∀ row ∈ mg.ss,
        row.length = (if ringct.RctType.Bulletproof2 = .Full then 1 + 1 else 2) ∧
        ∀ k ∈ row, k.key.length = 32 :=
  mg_signature_shape .Bulletproof2 1 1 1
    (ringct.RctSigPrunable.consensus_encode .Bulletproof2 ringct.prunW) []
    ringct.prunW (by decide) (by decide)

/-! ## Claim C3: supporting lemmas -/

theorem flipBit_ne (j : Nat) (hj : j < 8) (b : Byte) : flipBit j b ≠ b := by
  intro h
  have hv : (b.val ^^^ 2 ^ j) % 256 = b.val := congrArg Fin.val h
  have hlt : b.val ^^^ 2 ^ j < 256 := by
    have hb : b.val < 2 ^ 8 := b.isLt
    have hx : b.val ^^^ 2 ^ j < 2 ^ 8 :=
      Nat.xor_lt_two_pow hb (Nat.pow_lt_pow_right (by omega) hj)
    omega
  rw [Nat.mod_eq_of_lt hlt] at hv
  have h2 : b.val ^^^ (b.val ^^^ 2 ^ j) = b.val ^^^ b.val := congrArg (b.val ^^^ ·) hv
  rw [← Nat.xor_assoc, Nat.xor_self, Nat.zero_xor] at h2
  have hpos : 0 < 2 ^ j := Nat.pos_pow_of_pos j (by omega)
  omega

theorem set_pre_mid (pre mid post : List Byte) (k : Nat) (x : Byte)
    (hk : k < mid.length) :
    (pre ++ (mid ++ post)).set (pre.length + k) x = pre ++ (mid.set k x ++ post) := by
  rw [List.set_append, if_neg (by omega), Nat.add_sub_cancel_left,
    List.set_append, if_pos hk]

theorem get?_pre_mid (pre mid post : List Byte) (k : Nat) (hk : k < mid.length) :
    (pre ++ (mid ++ post))[pre.length + k]? = mid[k]? := by
  rw [List.getElem?_append_right (by omega), Nat.add_sub_cancel_left,
    List.getElem?_append_left hk]

theorem set_ne_of_ne (mid : List Byte) (k : Nat) (x y : Byte)
    (hky : mid[k]? = some y) (hxy : x ≠ y) : mid.set k x ≠ mid := by
  intro h
  have hlen : k < mid.length := by
    by_contra hc
    rw [List.getElem?_eq_none (by omega)] at hky
    cases hky
  have hset := List.getElem?_set_self (l := mid) (i := k) (a := x) hlen
  rw [h, hky] at hset
  exact hxy (by cases hset; rfl)

theorem flipByteBit_pre_mid (pre mid post : List Byte) (k j : Nat) (y : Byte)
    (hk : k < mid.length) (hy : mid[k]? = some y) :
    flipByteBit (pre.length + k) j (pre ++ (mid ++ post)) =
      pre ++ (mid.set k (flipBit j y) ++ post) := by
  unfold flipByteBit
  rw [List.get?_eq_getElem?, get?_pre_mid pre mid post k hk, hy]
  exact set_pre_mid pre mid post k (flipBit j y) hk

/-- `AddressType::from_slice` can only fail with `InvalidMagicByte`. -/
theorem from_slice_error_inv (bytes : List Byte) (net : Network)
    (e : address.Error)
    (h : AddressType.from_slice bytes net = some (.error e)) :
    e = .InvalidMagicByte := by
  cases net <;>
  · unfold AddressType.from_slice at h
    cases hh : bytes.head? with
    | none =>
      rw [hh] at h
      exact Option.noConfusion h
    | some b0 =>
      rw [hh] at h
      simp only [Option.pure_def, Option.bind_eq_bind, Option.some_bind] at h
      split at h
      · simp at h
      · split at h
        · cases hs : slice? bytes 65 73 <;> rw [hs] at h <;> simp_all
        · split at h
          · simp at h
          · simp at h
            exact h.symm

/-- A successful `AddressType::from_slice` forces the first byte to be
the magic byte of the recovered type and, for Integrated, the payment
id to come from offsets 65..73. -/
theorem from_slice_ok_inv (bytes : List Byte) (net : Network) (t : AddressType)
    (h : AddressType.from_slice bytes net = some (.ok t)) :
    bytes.head? = some (net.as_u8 t) ∧
    ∀ pid, t = .Integrated pid → slice? bytes 65 73 = some pid.bytes := by
  cases net <;>
  · unfold AddressType.from_slice at h
    cases hh : bytes.head? with
    | none =>
      rw [hh] at h
      exact Option.noConfusion h
    | some b0 =>
      rw [hh] at h
      simp only [Option.pure_def, Option.bind_eq_bind, Option.some_bind] at h
      split at h
      next hb =>
        subst hb
        simp at h
        subst h
        exact ⟨rfl, fun pid hpid => by cases hpid⟩
      next hb =>
        split at h
        next hb2 =>
          subst hb2
          cases hs : slice? bytes 65 73 with
          | none =>
            rw [hs] at h
            exact Option.noConfusion h
          | some pid =>
            rw [hs] at h
            simp at h
            subst h
            exact ⟨rfl, fun pid2 hpid => by cases hpid; rfl⟩
        next hb2 =>
          split at h
          next hb3 =>
            subst hb3
            simp at h
            subst h
            exact ⟨rfl, fun pid hpid => by cases hpid⟩
          next hb3 =>
            simp at h

/-- Every outcome of `Address::from_bytes` is a panic, one of four
specific typed errors, or a success. -/
theorem from_bytes_cases (keccak : List Byte → List Byte)
    (decompressOk : List Byte → Bool) (B : List Byte) :
    Address.from_bytes keccak decompressOk B = none ∨
    Address.from_bytes keccak decompressOk B = some (.error .InvalidChecksum) ∨
    Address.from_bytes keccak decompressOk B = some (.error .InvalidMagicByte) ∨
    Address.from_bytes keccak decompressOk B =
      some (.error (.Network .InvalidMagicByte)) ∨
    Address.from_bytes keccak decompressOk B = some (.error .InvalidFormat) ∨
    ∃ b, Address.from_bytes keccak decompressOk B = some (.ok b) := by
  unfold Address.from_bytes
  cases hh : B.head? with
  | none => left; rfl
  | some b0 =>
    simp only [Option.pure_def, Option.bind_eq_bind, Option.some_bind]
    cases hnu : Network.from_u8 b0 with
    | error e =>
      cases e
      right; right; right; left; rfl
    | ok n =>
      simp only []
      cases hfs : AddressType.from_slice B n with
      | none => left; rfl
      | some res =>
        simp only [Option.some_bind]
        cases res with
        | error e =>
          have he := from_slice_error_inv B n e hfs
          subst he
          right; right; left; rfl
        | ok t =>
          simp only []
          cases hs : slice? B 1 33 with
          | none => left; rfl
          | some s =>
            simp only [Option.some_bind]
            cases hps : PublicKey.from_slice decompressOk s with
            | error e => right; right; right; right; left; rfl
            | ok ps =>
              simp only []
              cases hv : slice? B 33 65 with
              | none => left; rfl
              | some v =>
                simp only [Option.some_bind]
                cases hpv : PublicKey.from_slice decompressOk v with
                | error e => right; right; right; right; left; rfl
                | ok pv =>
                  simp only []
                  cases t with
                  | Standard =>
                    simp only []
                    cases hcb : slice? B 0 65 with
                    | none => left; rfl
                    | some cb =>
                      simp only [Option.some_bind]
                      cases hck : slice? B 65 69 with
                      | none => left; rfl
                      | some ck =>
                        simp only [Option.some_bind]
                        by_cases hne : (keccak cb).take 4 ≠ ck
                        · rw [if_pos hne]
                          right; left; rfl
                        · rw [if_neg hne]
                          right; right; right; right; right
                          exact ⟨_, rfl⟩
                  | SubAddress =>
                    simp only []
                    cases hcb : slice? B 0 65 with
                    | none => left; rfl
                    | some cb =>
                      simp only [Option.some_bind]
                      cases hck : slice? B 65 69 with
                      | none => left; rfl
                      | some ck =>
                        simp only [Option.some_bind]
                        by_cases hne : (keccak cb).take 4 ≠ ck
                        · rw [if_pos hne]
                          right; left; rfl
                        · rw [if_neg hne]
                          right; right; right; right; right
                          exact ⟨_, rfl⟩
                  | Integrated pid =>
                    simp only []
                    cases hcb : slice? B 0 73 with
                    | none => left; rfl
                    | some cb =>
                      simp only [Option.some_bind]
                      cases hck : slice? B 73 77 with
                      | none => left; rfl
                      | some ck =>
                        simp only [Option.some_bind]
                        by_cases hne : (keccak cb).take 4 ≠ ck
                        · rw [if_pos hne]
                          right; left; rfl
                        · rw [if_neg hne]
                          right; right; right; right; right
                          exact ⟨_, rfl⟩

/-- A successful `PublicKey::from_slice` returns exactly the input
bytes, which must be 32 bytes and decompress. -/
theorem PublicKey_from_slice_ok (decompressOk : List Byte → Bool)
    (data : List Byte) (p : PublicKey)
    (h : PublicKey.from_slice decompressOk data = .ok p) :
    p.point = data ∧ data.length = 32 ∧ decompressOk data = true := by
  unfold PublicKey.from_slice at h
  split at h
  · cases h
  · split at h
    next hd =>
      cases h
      exact ⟨rfl, by omega, hd⟩
    next => cases h

/-- What a successful `Address::from_bytes` forces about its input: the
magic byte matches the parsed (network, type), the keys are the slices
at 1..33 and 33..65, an Integrated payment id is the slice at 65..73,
and the recomputed checksum over the type-determined prefix equals the
stored checksum slice. -/
theorem from_bytes_ok_inv (keccak : List Byte → List Byte)
    (decompressOk : List Byte → Bool) (B : List Byte) (b : Address)
    (h : Address.from_bytes keccak decompressOk B = some (.ok b)) :
    B.head? = some (Network.as_u8 b.network b.addr_type) ∧
    slice? B 1 33 = some b.public_spend.point ∧
    slice? B 33 65 = some b.public_view.point ∧
    (∀ pid, b.addr_type = .Integrated pid → slice? B 65 73 = some pid.bytes) ∧
    (match b.addr_type with
     | .Integrated _ =>
       ∃ cb ck, slice? B 0 73 = some cb ∧ slice? B 73 77 = some ck ∧
         (keccak cb).take 4 = ck
     | _ =>
       ∃ cb ck, slice? B 0 65 = some cb ∧ slice? B 65 69 = some ck ∧
         (keccak cb).take 4 = ck) := by
  unfold Address.from_bytes at h
  cases hh : B.head? with
  | none =>
    rw [hh] at h
    exact Option.noConfusion h
  | some b0 =>
    rw [hh] at h
    simp only [Option.pure_def, Option.bind_eq_bind, Option.some_bind] at h
    cases hnu : Network.from_u8 b0 with
    | error e =>
      rw [hnu] at h
      simp at h
    | ok n =>
      rw [hnu] at h
      simp only [] at h
      cases hfs : AddressType.from_slice B n with
      | none =>
        rw [hfs] at h
        exact Option.noConfusion h
      | some res =>
        rw [hfs] at h
        simp only [Option.some_bind] at h
        cases res with
        | error e => simp at h
        | ok t =>
          simp only [] at h
          cases hs : slice? B 1 33 with
          | none =>
            rw [hs] at h
            exact Option.noConfusion h
          | some s =>
            rw [hs] at h
            simp only [Option.some_bind] at h
            cases hps : PublicKey.from_slice decompressOk s with
            | error e =>
              rw [hps] at h
              simp at h
            | ok ps =>
              rw [hps] at h
              simp only [] at h
              cases hv : slice? B 33 65 with
              | none =>
                rw [hv] at h
                exact Option.noConfusion h
              | some v =>
                rw [hv] at h
                simp only [Option.some_bind] at h
                cases hpv : PublicKey.from_slice decompressOk v with
                | error e =>
                  rw [hpv] at h
                  simp at h
                | ok pv =>
                  rw [hpv] at h
                  simp only [] at h
                  obtain ⟨hpse, hsl, hsd⟩ := PublicKey_from_slice_ok _ _ _ hps
                  obtain ⟨hpve, hvl, hvd⟩ := PublicKey_from_slice_ok _ _ _ hpv
                  obtain ⟨hfs1, hfs2⟩ := from_slice_ok_inv B n t hfs
                  cases t with
                  | Standard =>
                    simp only [] at h
                    cases hcb : slice? B 0 65 with
                    | none =>
                      rw [hcb] at h
                      exact Option.noConfusion h
                    | some cb =>
                      rw [hcb] at h
                      simp only [Option.some_bind] at h
                      cases hck : slice? B 65 69 with
                      | none =>
                        rw [hck] at h
                        exact Option.noConfusion h
                      | some ck =>
                        rw [hck] at h
                        simp only [Option.some_bind] at h
                        by_cases hne : (keccak cb).take 4 ≠ ck
                        · rw [if_pos hne] at h
                          simp at h
                        · rw [if_neg hne] at h
                          simp only [Option.some.injEq, Except.ok.injEq] at h
                          subst h
                          rw [hh] at hfs1
                          refine ⟨hfs1, ?_, ?_, ?_, ?_⟩
                          · rw [hpse]
                          · rw [hpve]
                          · intro pid hpid
                            simp at hpid
                          · exact ⟨cb, ck, rfl, rfl, not_ne_iff.mp hne⟩
                  | SubAddress =>
                    simp only [] at h
                    cases hcb : slice? B 0 65 with
                    | none =>
                      rw [hcb] at h
                      exact Option.noConfusion h
                    | some cb =>
                      rw [hcb] at h
                      simp only [Option.some_bind] at h
                      cases hck : slice? B 65 69 with
                      | none =>
                        rw [hck] at h
                        exact Option.noConfusion h
                      | some ck =>
                        rw [hck] at h
                        simp only [Option.some_bind] at h
                        by_cases hne : (keccak cb).take 4 ≠ ck
                        · rw [if_pos hne] at h
                          simp at h
                        · rw [if_neg hne] at h
                          simp only [Option.some.injEq, Except.ok.injEq] at h
                          subst h
                          rw [hh] at hfs1
                          refine ⟨hfs1, ?_, ?_, ?_, ?_⟩
                          · rw [hpse]
                          · rw [hpve]
                          · intro pid hpid
                            simp at hpid
                          · exact ⟨cb, ck, rfl, rfl, not_ne_iff.mp hne⟩
                  | Integrated pid =>
                    simp only [] at h
                    cases hcb : slice? B 0 73 with
                    | none =>
                      rw [hcb] at h
                      exact Option.noConfusion h
                    | some cb =>
                      rw [hcb] at h
                      simp only [Option.some_bind] at h
                      cases hck : slice? B 73 77 with
                      | none =>
                        rw [hck] at h
                        exact Option.noConfusion h
                      | some ck =>
                        rw [hck] at h
                        simp only [Option.some_bind] at h
                        by_cases hne : (keccak cb).take 4 ≠ ck
                        · rw [if_pos hne] at h
                          simp at h
                        · rw [if_neg hne] at h
                          simp only [Option.some.injEq, Except.ok.injEq] at h
                          subst h
                          rw [hh] at hfs1
                          refine ⟨hfs1, ?_, ?_, ?_, ?_⟩
                          · rw [hpse]
                          · rw [hpve]
                          · intro pid2 hpid
                            simp only [AddressType.Integrated.injEq] at hpid
                            obtain rfl := hpid
                            exact hfs2 _ rfl
                          · exact ⟨cb, ck, rfl, rfl, not_ne_iff.mp hne⟩

/-- Flipping bit `j` of byte `pre.length + k` of a buffer decomposed as
`pre ++ (mid ++ post)` replaces `mid` by a different list of the same
length. -/
theorem flip_mid (pre mid post : List Byte) (k j : Nat)
    (hk : k < mid.length) (hj : j < 8) :
    ∃ mid2, flipByteBit (pre.length + k) j (pre ++ (mid ++ post)) =
        pre ++ (mid2 ++ post) ∧ mid2.length = mid.length ∧ mid2 ≠ mid := by
  have hy : mid[k]? = some (mid.get ⟨k, hk⟩) := by
    rw [List.getElem?_eq_getElem hk]
    rfl
  refine ⟨mid.set k (flipBit j (mid.get ⟨k, hk⟩)),
    flipByteBit_pre_mid pre mid post k j _ hk hy, by simp, ?_⟩
  exact set_ne_of_ne mid k _ _ hy (flipBit_ne j hj _)

/-- If decoding a single-bit-flipped encoding of a valid address
succeeds, the decoded address differs from the original. -/
theorem from_bytes_flip_ne (keccak : List Byte → List Byte)
    (decompressOk : List Byte → Bool) (a : Address) (i j : Nat) (b : Address)
    (hk : ∀ x, (keccak x).length = 32) (hv : Address.Valid decompressOk a)
    (hi : i < (Address.as_bytes keccak a).length) (hj : j < 8)
    (hb : Address.from_bytes keccak decompressOk
      (flipByteBit i j (Address.as_bytes keccak a)) = some (.ok b)) :
    b ≠ a := by
  intro heq
  obtain ⟨n, t, ⟨s⟩, ⟨v⟩⟩ := a
  subst heq
  obtain ⟨hs, hds, hvw, hdv, hpid⟩ := hv
  simp only at hs hds hvw hdv
  obtain ⟨h1, h2, h3, h4, h5⟩ := from_bytes_ok_inv keccak decompressOk _ _ hb
  simp only at h1 h2 h3 h4 h5
  cases t with
  | Standard =>
    simp only [Address.as_bytes, List.append_nil, List.cons_append,
      List.append_assoc] at hi h1 h2 h3 h5
    set m : Byte := n.as_u8 .Standard with hm
    set c : List Byte := (keccak (m :: (s ++ v))).take 4 with hc
    have hcl : c.length = 4 := by simp [hc, hk]
    have hlen : (m :: (s ++ (v ++ c))).length = 69 := by simp [hs, hvw, hcl]
    rw [hlen] at hi
    by_cases hi0 : i = 0
    · subst hi0
      have hF : flipByteBit 0 j (m :: (s ++ (v ++ c))) =
          flipBit j m :: (s ++ (v ++ c)) := rfl
      rw [hF] at h1
      simp at h1
      exact flipBit_ne j hj m h1
    by_cases hi33 : i < 33
    · have hk1 : i - 1 < s.length := by omega
      obtain ⟨s2, hF, hsl, hne⟩ := flip_mid [m] s (v ++ c) (i - 1) j hk1 hj
      rw [show [m].length + (i - 1) = i from by simp; omega] at hF
      rw [List.singleton_append, List.singleton_append] at hF
      rw [hF] at h2
      have hslc : slice? (m :: (s2 ++ (v ++ c))) 1 33 = some s2 := by
        have := slice?_pre_mid [m] s2 (v ++ c)
        simpa [hsl, hs] using this
      rw [hslc] at h2
      simp at h2
      exact hne h2
    by_cases hi65 : i < 65
    · have hk1 : i - 33 < v.length := by omega
      obtain ⟨v2, hF, hvl, hne⟩ := flip_mid (m :: s) v c (i - 33) j hk1 hj
      rw [show (m :: s).length + (i - 33) = i from by simp [hs]; omega] at hF
      rw [show (m :: s) ++ (v ++ c) = m :: (s ++ (v ++ c)) from by simp] at hF
      rw [show (m :: s) ++ (v2 ++ c) = m :: (s ++ (v2 ++ c)) from by simp] at hF
      rw [hF] at h3
      have hslc : slice? (m :: (s ++ (v2 ++ c))) 33 65 = some v2 := by
        have := slice?_pre_mid (m :: s) v2 c
        simpa [hs, hvl, hvw, List.append_assoc] using this
      rw [hslc] at h3
      simp at h3
      exact hne h3
    · have hk1 : i - 65 < c.length := by omega
      obtain ⟨c2, hF, hcl2, hne⟩ := flip_mid (m :: (s ++ v)) c [] (i - 65) j hk1 hj
      rw [show (m :: (s ++ v)).length + (i - 65) = i from by
        simp [hs, hvw]; omega] at hF
      rw [show (m :: (s ++ v)) ++ (c ++ []) = m :: (s ++ (v ++ c)) from by simp] at hF
      rw [show (m :: (s ++ v)) ++ (c2 ++ []) = m :: (s ++ (v ++ c2)) from by simp] at hF
      rw [hF] at h5
      obtain ⟨cb, ck, hcb, hck, hchk⟩ := h5
      have hcbc : slice? (m :: (s ++ (v ++ c2))) 0 65 = some (m :: (s ++ v)) := by
        have := slice?_pre_mid [] (m :: (s ++ v)) (v ++ c2)
        have h2 := slice?_pre_mid [] (m :: (s ++ v)) c2
        simpa [hs, hvw, List.append_assoc] using h2
      have hckc : slice? (m :: (s ++ (v ++ c2))) 65 69 = some c2 := by
        have := slice?_pre_mid (m :: (s ++ v)) c2 ([] : List Byte)
        simpa [hs, hvw, hcl2, hcl, List.append_assoc] using this
      rw [hcbc] at hcb
      rw [hckc] at hck
      simp only [Option.some.injEq] at hcb hck
      subst hcb
      subst hck
      exact hne (by rw [hc]; exact hchk.symm)
  | SubAddress =>
    simp only [Address.as_bytes, List.append_nil, List.cons_append,
      List.append_assoc] at hi h1 h2 h3 h5
    set m : Byte := n.as_u8 .SubAddress with hm
    set c : List Byte := (keccak (m :: (s ++ v))).take 4 with hc
    have hcl : c.length = 4 := by simp [hc, hk]
    have hlen : (m :: (s ++ (v ++ c))).length = 69 := by simp [hs, hvw, hcl]
    rw [hlen] at hi
    by_cases hi0 : i = 0
    · subst hi0
      have hF : flipByteBit 0 j (m :: (s ++ (v ++ c))) =
          flipBit j m :: (s ++ (v ++ c)) := rfl
      rw [hF] at h1
      simp at h1
      exact flipBit_ne j hj m h1
    by_cases hi33 : i < 33
    · have hk1 : i - 1 < s.length := by omega
      obtain ⟨s2, hF, hsl, hne⟩ := flip_mid [m] s (v ++ c) (i - 1) j hk1 hj
      rw [show [m].length + (i - 1) = i from by simp; omega] at hF
      rw [List.singleton_append, List.singleton_append] at hF
      rw [hF] at h2
      have hslc : slice? (m :: (s2 ++ (v ++ c))) 1 33 = some s2 := by
        have := slice?_pre_mid [m] s2 (v ++ c)
        simpa [hsl, hs] using this
      rw [hslc] at h2
      simp at h2
      exact hne h2
    by_cases hi65 : i < 65
    · have hk1 : i - 33 < v.length := by omega
      obtain ⟨v2, hF, hvl, hne⟩ := flip_mid (m :: s) v c (i - 33) j hk1 hj
      rw [show (m :: s).length + (i - 33) = i from by simp [hs]; omega] at hF
      rw [show (m :: s) ++ (v ++ c) = m :: (s ++ (v ++ c)) from by simp] at hF
      rw [show (m :: s) ++ (v2 ++ c) = m :: (s ++ (v2 ++ c)) from by simp] at hF
      rw [hF] at h3
      have hslc : slice? (m :: (s ++ (v2 ++ c))) 33 65 = some v2 := by
        have := slice?_pre_mid (m :: s) v2 c
        simpa [hs, hvl, hvw, List.append_assoc] using this
      rw [hslc] at h3
      simp at h3
      exact hne h3
    · have hk1 : i - 65 < c.length := by omega
      obtain ⟨c2, hF, hcl2, hne⟩ := flip_mid (m :: (s ++ v)) c [] (i - 65) j hk1 hj
      rw [show (m :: (s ++ v)).length + (i - 65) = i from by
        simp [hs, hvw]; omega] at hF
      rw [show (m :: (s ++ v)) ++ (c ++ []) = m :: (s ++ (v ++ c)) from by simp] at hF
      rw [show (m :: (s ++ v)) ++ (c2 ++ []) = m :: (s ++ (v ++ c2)) from by simp] at hF
      rw [hF] at h5
      obtain ⟨cb, ck, hcb, hck, hchk⟩ := h5
      have hcbc : slice? (m :: (s ++ (v ++ c2))) 0 65 = some (m :: (s ++ v)) := by
        have h2 := slice?_pre_mid [] (m :: (s ++ v)) c2
        simpa [hs, hvw, List.append_assoc] using h2
      have hckc : slice? (m :: (s ++ (v ++ c2))) 65 69 = some c2 := by
        have := slice?_pre_mid (m :: (s ++ v)) c2 ([] : List Byte)
        simpa [hs, hvw, hcl2, hcl, List.append_assoc] using this
      rw [hcbc] at hcb
      rw [hckc] at hck
      simp only [Option.some.injEq] at hcb hck
      subst hcb
      subst hck
      exact hne (by rw [hc]; exact hchk.symm)
  | Integrated pid =>
    have hp8 : pid.bytes.length = 8 := hpid pid rfl
    simp only [Address.as_bytes, List.cons_append, List.append_assoc] at hi h1 h2 h3 h4 h5
    set m : Byte := n.as_u8 (.Integrated pid) with hm
    set p : List Byte := pid.bytes with hp
    set c : List Byte := (keccak (m :: (s ++ (v ++ p)))).take 4 with hc
    have hcl : c.length = 4 := by simp [hc, hk]
    have hlen : (m :: (s ++ (v ++ (p ++ c)))).length = 77 := by simp [hs, hvw, hp8, hcl]
    rw [hlen] at hi
    by_cases hi0 : i = 0
    · subst hi0
      have hF : flipByteBit 0 j (m :: (s ++ (v ++ (p ++ c)))) =
          flipBit j m :: (s ++ (v ++ (p ++ c))) := rfl
      rw [hF] at h1
      simp at h1
      exact flipBit_ne j hj m h1
    by_cases hi33 : i < 33
    · have hk1 : i - 1 < s.length := by omega
      obtain ⟨s2, hF, hsl, hne⟩ := flip_mid [m] s (v ++ (p ++ c)) (i - 1) j hk1 hj
      rw [show [m].length + (i - 1) = i from by simp; omega] at hF
      rw [List.singleton_append, List.singleton_append] at hF
      rw [hF] at h2
      have hslc : slice? (m :: (s2 ++ (v ++ (p ++ c)))) 1 33 = some s2 := by
        have := slice?_pre_mid [m] s2 (v ++ (p ++ c))
        simpa [hsl, hs] using this
      rw [hslc] at h2
      simp at h2
      exact hne h2
    by_cases hi65 : i < 65
    · have hk1 : i - 33 < v.length := by omega
      obtain ⟨v2, hF, hvl, hne⟩ := flip_mid (m :: s) v (p ++ c) (i - 33) j hk1 hj
      rw [show (m :: s).length + (i - 33) = i from by simp [hs]; omega] at hF
      rw [show (m :: s) ++ (v ++ (p ++ c)) = m :: (s ++ (v ++ (p ++ c))) from by simp] at hF
      rw [show (m :: s) ++ (v2 ++ (p ++ c)) = m :: (s ++ (v2 ++ (p ++ c))) from by simp] at hF
      rw [hF] at h3
      have hslc : slice? (m :: (s ++ (v2 ++ (p ++ c)))) 33 65 = some v2 := by
        have := slice?_pre_mid (m :: s) v2 (p ++ c)
        simpa [hs, hvl, hvw, List.append_assoc] using this
      rw [hslc] at h3
      simp at h3
      exact hne h3
    by_cases hi73 : i < 73
    · have hk1 : i - 65 < p.length := by omega
      obtain ⟨p2, hF, hpl, hne⟩ := flip_mid (m :: (s ++ v)) p c (i - 65) j hk1 hj
      rw [show (m :: (s ++ v)).length + (i - 65) = i from by simp [hs, hvw]; omega] at hF
      rw [show (m :: (s ++ v)) ++ (p ++ c) = m :: (s ++ (v ++ (p ++ c))) from by simp] at hF
      rw [show (m :: (s ++ v)) ++ (p2 ++ c) = m :: (s ++ (v ++ (p2 ++ c))) from by simp] at hF
      rw [hF] at h4
      have h4p := h4 pid rfl
      have hslc : slice? (m :: (s ++ (v ++ (p2 ++ c)))) 65 73 = some p2 := by
        have := slice?_pre_mid (m :: (s ++ v)) p2 c
        simpa [hs, hvw, hpl, hp8, List.append_assoc] using this
      rw [hslc] at h4p
      simp at h4p
      exact hne h4p
    · have hk1 : i - 73 < c.length := by omega
      obtain ⟨c2, hF, hcl2, hne⟩ := flip_mid (m :: (s ++ (v ++ p))) c [] (i - 73) j hk1 hj
      rw [show (m :: (s ++ (v ++ p))).length + (i - 73) = i from by
        simp [hs, hvw, hp8]; omega] at hF
      rw [show (m :: (s ++ (v ++ p))) ++ (c ++ []) = m :: (s ++ (v ++ (p ++ c))) from by simp] at hF
      rw [show (m :: (s ++ (v ++ p))) ++ (c2 ++ []) = m :: (s ++ (v ++ (p ++ c2))) from by simp] at hF
      rw [hF] at h5
      obtain ⟨cb, ck, hcb, hck, hchk⟩ := h5
      have hcbc : slice? (m :: (s ++ (v ++ (p ++ c2)))) 0 73 =
          some (m :: (s ++ (v ++ p))) := by
        have h2 := slice?_pre_mid [] (m :: (s ++ (v ++ p))) c2
        simpa [hs, hvw, hp8, List.append_assoc] using h2
      have hckc : slice? (m :: (s ++ (v ++ (p ++ c2)))) 73 77 = some c2 := by
        have := slice?_pre_mid (m :: (s ++ (v ++ p))) c2 ([] : List Byte)
        simpa [hs, hvw, hp8, hcl2, hcl, List.append_assoc] using this
      rw [hcbc] at hcb
      rw [hckc] at hck
      simp only [Option.some.injEq] at hcb hck
      subst hcb
      subst hck
      exact hne (by rw [hc]; exact hchk.symm)

/-! ## Claim C3 -/

/-- C3 (amended): flipping any single bit of a valid address encoding
never returns the original address: decoding either panics via
out-of-bounds indexing (which happens when a Standard/SubAddress magic
byte is flipped into an Integrated magic byte on a 69-byte buffer),
or fails with InvalidChecksum, InvalidMagicByte (at the address or
network level), or InvalidFormat (a flipped key no longer decompresses),
or — possible only when the recomputed 4-byte checksum collides —
succeeds with an address different from the original. -/
theorem checksum_flip_behavior (keccak : List Byte → List Byte)
    (decompressOk : List Byte → Bool) (a : Address) (i j : Nat)
    (hk : ∀ x, (keccak x).length = 32) (hv : Address.Valid decompressOk a)
    (hi : i < (Address.as_bytes keccak a).length) (hj : j < 8) :
    Address.from_bytes keccak decompressOk
      (flipByteBit i j (Address.as_bytes keccak a)) = none ∨
    Address.from_bytes keccak decompressOk
      (flipByteBit i j (Address.as_bytes keccak a)) =
        some (.error .InvalidChecksum) ∨
    Address.from_bytes keccak decompressOk
      (flipByteBit i j (Address.as_bytes keccak a)) =
        some (.error .InvalidMagicByte) ∨
    Address.from_bytes keccak decompressOk
      (flipByteBit i j (Address.as_bytes keccak a)) =
        some (.error (.Network .InvalidMagicByte)) ∨
    Address.from_bytes keccak decompressOk
      (flipByteBit i j (Address.as_bytes keccak a)) =
        some (.error .InvalidFormat) ∨
    ∃ b, Address.from_bytes keccak decompressOk
      (flipByteBit i j (Address.as_bytes keccak a)) = some (.ok b) ∧ b ≠ a := by
  rcases from_bytes_cases keccak decompressOk
      (flipByteBit i j (Address.as_bytes keccak a)) with
    h | h | h | h | h | ⟨b, hb⟩
  · exact .inl h
  · exact .inr (.inl h)
  · exact .inr (.inr (.inl h))
  · exact .inr (.inr (.inr (.inl h)))
  · exact .inr (.inr (.inr (.inr (.inl h))))
  · refine .inr (.inr (.inr (.inr (.inr ⟨b, hb, ?_⟩))))
    exact from_bytes_flip_ne keccak decompressOk a i j b hk hv hi hj hb

/-- A decompression stand-in accepting exactly the two concrete witness
keys, used to exhibit the InvalidFormat outcome. -/
def decompressKeysW : List Byte → Bool :=
  fun bs => decide (bs = spendW) || decide (bs = viewW)

theorem addrW_valid_keysW : Address.Valid decompressKeysW addrW := by
  refine ⟨by decide, by decide, by decide, by decide, ?_⟩
  intro pid h
  cases h

/-- C3 counterexample: at the concrete valid Mainnet standard address
`addrW`, flipping bit 0 of byte 0 turns the magic byte 18 into 19
(Integrated), and `from_bytes` panics indexing `bytes[65..73]` of the
69-byte buffer — modelled as `none`: not `InvalidChecksum`, not
`InvalidMagicByte`, not a typed error at all. Flipping bit 0 of byte 9
(inside the spend key) makes the key fail decompression, and
`from_bytes` fails with `InvalidFormat`, an error kind the claim
excludes. -/
theorem checksum_flip_counterexample :
    Address.Valid decompressW addrW ∧
    Address.from_bytes keccakW decompressW
      (flipByteBit 0 0 (Address.as_bytes keccakW addrW)) = none ∧
    Address.Valid decompressKeysW addrW ∧
    Address.from_bytes keccakW decompressKeysW
      (flipByteBit 9 0 (Address.as_bytes keccakW addrW)) =
        some (.error .InvalidFormat) :=
  ⟨addrW_valid, by decide, addrW_valid_keysW, by decide⟩

/-- Witness for the amended C3: the full outcome classification applied
at the concrete address `addrW`, byte 67, bit 1 (a checksum-region
flip). -/
theorem checksum_flip_behavior_witness :
    Address.Valid decompressW addrW ∧
    (Address.from_bytes keccakW decompressW
      (flipByteBit 67 1 (Address.as_bytes keccakW addrW)) = none ∨
    Address.from_bytes keccakW decompressW
      (flipByteBit 67 1 (Address.as_bytes keccakW addrW)) =
        some (.error .InvalidChecksum) ∨
    Address.from_bytes keccakW decompressW
      (flipByteBit 67 1 (Address.as_bytes keccakW addrW)) =
        some (.error .InvalidMagicByte) ∨
    Address.from_bytes keccakW decompressW
      (flipByteBit 67 1 (Address.as_bytes keccakW addrW)) =
        some (.error (.Network .InvalidMagicByte)) ∨
    Address.from_bytes keccakW decompressW
      (flipByteBit 67 1 (Address.as_bytes keccakW addrW)) =
        some (.error .InvalidFormat) ∨
    ∃ b, Address.from_bytes keccakW decompressW
      (flipByteBit 67 1 (Address.as_bytes keccakW addrW)) =
        some (.ok b) ∧ b ≠ addrW) :=
  ⟨addrW_valid,
    checksum_flip_behavior keccakW decompressW addrW 67 1 keccakW_length
      addrW_valid (by decide) (by decide)⟩
